import Mathlib

/-!
# BulkCmd: the block accumulator of `ProcessCommands`

A shallow embedding of `src/main.cpp`.  `ProcessCommands` reads lines from
standard input, collects them in `commands`, and hands the collected block to
the `log` lambda when a flush condition fires.

Modelling decisions:

* standard input is a `List String` of lines (what `std::getline` yields until
  the stream ends);
* the wall clock is a function of the index of the line being processed,
  giving the whole seconds since the epoch (`clock`), and the time stamp is
  its decimal rendering, as `std::to_string` produces;
* whether `std::ofstream` opens its file is an oracle of the environment
  (`is_open`), asked with the number of the `log` call and the file name;
* `deep` is an `Int` (the source uses `int`; overflow is not modelled);
* `block_size` is a `Nat` (the source uses `unsigned`); `main` converts the
  parsed `int` to it modulo `2 ^ 32`;
* the state carries three ghost fields: `pos` (lines read so far), `calls`
  (number of calls of `log`) and `out` (the blocks that `log` has emitted).
-/

namespace BulkCmd

abbrev StringList := List String

/-- One emission of `log`: the time stamp naming the file and the commands
printed after `bulk: `. -/
structure LogWrite where
  time_stamp : String
  cmds : StringList
deriving DecidableEq, Repr

/-- File that `log` opens for a write. -/
def LogWrite.file_name (w : LogWrite) : String :=
  "bulk" ++ w.time_stamp ++ ".log"

/-- Text that `log` sends both to `std::cout` and to the file. -/
def LogWrite.text (w : LogWrite) : String :=
  "bulk: " ++ String.join (w.cmds.map (fun cmd => cmd ++ ", ")) ++ "\n"

/-- What the program observes of the outside world. -/
structure Env where
  /-- seconds since the epoch when the line with the given index is processed -/
  clock : Nat → Int
  /-- does the `std::ofstream` of the given `log` call open the given file -/
  is_open : Nat → String → Bool

/-- Local variables of `ProcessCommands`, with the ghost fields. -/
structure State where
  commands : StringList
  deep : Int
  block_time : String
  pos : Nat
  calls : Nat
  out : List LogWrite
deriving DecidableEq, Repr

/-- Variables as declared at lines 58-61. -/
def State.init : State :=
  { commands := [], deep := 0, block_time := "", pos := 0, calls := 0, out := [] }

/-- `std::string::empty`. -/
def empty (s : String) : Bool := s.data.isEmpty

/-- `std::to_string` of the seconds count. -/
def to_string (i : Int) : String := toString i

/-- The lambda `get_current_time_stamp` (lines 20-23), called while the line
with index `pos` is processed. -/
def get_current_time_stamp (env : Env) (pos : Nat) : String :=
  to_string (env.clock pos)

/-- The lambda `log` (lines 32-56): result and state after the call. -/
def log (env : Env) (s : State) (time_stamp : String) (cmds : StringList) : Bool × State :=
  let s1 := { s with calls := s.calls + 1 }
  if !empty time_stamp && !cmds.isEmpty then
    if env.is_open s.calls ("bulk" ++ time_stamp ++ ".log") then
      (true, { s1 with out := s1.out ++ [{ time_stamp := time_stamp, cmds := cmds }] })
    else
      (false, s1)
  else
    (false, s1)

/-- The statement `if (log(block_time, commands)) commands.clear();`, which the
source repeats at lines 71-74, 83-86, 106-109 and 123-126. -/
def flush (env : Env) (s : State) : State :=
  match log env s s.block_time s.commands with
  | (true, s1) => { s1 with commands := [] }
  | (false, s1) => s1

/-- Body of the `while` loop (lines 65-117) for a line other than `EOF`. -/
def step (env : Env) (block_size : Nat) (s : State) (line : String) : State :=
  let s0 := { s with pos := s.pos + 1 }
  if line = "\x7b" then
    let s1 := { s0 with deep := s0.deep + 1 }
    if s1.deep = 1 then flush env s1 else s1
  else if line = "\x7d" then
    let s1 := { s0 with deep := s0.deep - 1 }
    if s1.deep = 0 then flush env s1 else s1
  else
    if s0.deep = 0 then
      let s1 := if s0.commands.isEmpty then
          { s0 with block_time := get_current_time_stamp env s.pos }
        else s0
      let s2 := { s1 with commands := s1.commands ++ [line] }
      if s2.commands.length = block_size then flush env s2 else s2
    else
      { s0 with commands := s0.commands ++ [line] }

/-- The `while (std::getline(std::cin, line))` loop (lines 63-118): it ends when
the input ends or at the first line `EOF`. -/
def readLoop (env : Env) (block_size : Nat) (s : State) : List String → State
  | [] => s
  | line :: rest =>
    if line = "EOF" then s else readLoop env block_size (step env block_size s line) rest

/-- Lines 120-127: the remaining static commands. -/
def finalize (env : Env) (s : State) : State :=
  if !s.commands.isEmpty && s.deep = 0 then flush env s else s

/-- `ProcessCommands(block_size)` on the given input lines. -/
def ProcessCommands (env : Env) (block_size : Nat) (input : List String) : State :=
  finalize env (readLoop env block_size State.init input)

/-- The function `main` (lines 137-159) when one argument is given: `parsed` is
the outcome of `std::stoi(argv[1])`, `none` when it throws, in which case
`block_size` keeps its initial value 0 (lines 145-154); the `int` is converted
to the `unsigned` parameter of `ProcessCommands` (line 156). -/
def main (env : Env) (parsed : Option Int) (input : List String) : State :=
  let block_size : Int := match parsed with
    | none => 0
    | some v => v
  ProcessCommands env (block_size % 2 ^ 32).toNat input

/-! ## Notions used in the statements -/

/-- A line that is neither a delimiter nor the terminator. -/
def ordinary (line : String) : Bool :=
  line != "\x7b" && line != "\x7d" && line != "EOF"

/-- An environment in which every file opens. -/
def Env.alwaysOpens (env : Env) : Prop := ∀ n f, env.is_open n f = true

/-- Environment used in the examples: the clock shows the index of the line
and every file opens. -/
def envIdx : Env := { clock := fun i => (i : Int), is_open := fun _ _ => true }

/-- The full runs of `b` consecutive lines of `l`, front to back. -/
def fullChunks (b : Nat) (l : List String) : List (List String) :=
  (List.range (l.length / b)).map (fun i => (l.drop (i * b)).take b)

/-- What is left of `l` after its full runs of `b` lines. -/
def lastPart (b : Nat) (l : List String) : List String :=
  l.drop (l.length / b * b)

/-- Nesting depth reached after the lines `ys` when they start `d` levels inside
an enclosing block; `none` when a `}` would close the enclosing block or when
`EOF` occurs. -/
def innerDepth : Nat → List String → Option Nat
  | d, [] => some d
  | d, l :: rest =>
    if l = "\x7b" then innerDepth (d + 1) rest
    else if l = "\x7d" then (if d = 0 then none else innerDepth (d - 1) rest)
    else if l = "EOF" then none
    else innerDepth d rest

/-- The input lines that the loop reads: those before the first `EOF`. -/
def consumed (input : List String) : List String :=
  input.takeWhile (fun l => l != "EOF")

/-- All commands written so far, in the order they were written. -/
def written (s : State) : List String :=
  (s.out.map (fun w => w.cmds)).flatten

/-- Environment in which the file of the first `log` call does not open and
all later ones do. -/
def envFailFirst : Env := { clock := fun i => (i : Int), is_open := fun n _ => n != 0 }

/-! ## Basic facts about the embedding -/

theorem toDigitsCore_ne_nil (b f n : Nat) (c : Char) (tl : List Char) :
    Nat.toDigitsCore b f n (c :: tl) ≠ [] := by
  intro h
  have := Nat.toDigitsCore_lens_eq b f n c tl
  rw [h] at this
  simp at this

theorem nat_repr_data_ne_nil (n : Nat) : (Nat.repr n).data ≠ [] := by
  simp only [Nat.repr, Nat.toDigits, List.asString, Nat.toDigitsCore]
  split
  · simp
  · exact toDigitsCore_ne_nil _ _ _ _ _

/-- The time stamp is never the empty string. -/
theorem empty_to_string (i : Int) : empty (to_string i) = false := by
  cases i with
  | ofNat m =>
    have h := nat_repr_data_ne_nil m
    show (Nat.repr m).data.isEmpty = false
    cases hd : (Nat.repr m).data with
    | nil => exact absurd hd h
    | cons a l => rfl
  | negSucc m =>
    show ("-" ++ Nat.repr (m + 1)).data.isEmpty = false
    simp [String.data_append]

theorem empty_time_stamp (env : Env) (pos : Nat) :
    empty (get_current_time_stamp env pos) = false :=
  empty_to_string _

theorem log_fst_eq_true_iff (env : Env) (s : State) (ts : String) (cmds : StringList) :
    (log env s ts cmds).1 = true ↔
      empty ts = false ∧ cmds ≠ [] ∧ env.is_open s.calls ("bulk" ++ ts ++ ".log") = true := by
  unfold log
  cases h1 : empty ts <;> cases h2 : cmds <;>
    cases h3 : env.is_open s.calls ("bulk" ++ ts ++ ".log") <;> simp

theorem log_eq (env : Env) (s : State) (ts : String) (cmds : StringList) :
    log env s ts cmds =
      if empty ts = false ∧ cmds ≠ [] ∧ env.is_open s.calls ("bulk" ++ ts ++ ".log") = true then
        (true, { s with calls := s.calls + 1,
                        out := s.out ++ [{ time_stamp := ts, cmds := cmds }] })
      else (false, { s with calls := s.calls + 1 }) := by
  unfold log
  cases h1 : empty ts <;> cases h2 : cmds <;>
    cases h3 : env.is_open s.calls ("bulk" ++ ts ++ ".log") <;> simp

theorem flush_of_fail (env : Env) (s : State)
    (h : (log env s s.block_time s.commands).1 = false) :
    flush env s = { s with calls := s.calls + 1 } := by
  unfold flush
  rw [log_eq] at h ⊢
  split at h
  · simp at h
  · rename_i hc
    rw [if_neg hc]

theorem flush_of_ok (env : Env) (s : State)
    (h : (log env s s.block_time s.commands).1 = true) :
    flush env s = { s with calls := s.calls + 1, commands := [],
                           out := s.out ++ [{ time_stamp := s.block_time, cmds := s.commands }] } := by
  unfold flush
  rw [log_eq] at h ⊢
  split at h
  · rename_i hc
    rw [if_pos hc]
  · simp at h

/-- A flush either leaves the block alone or moves it to the output. -/
theorem flush_cases (env : Env) (s : State) :
    ((log env s s.block_time s.commands).1 = false ∧
        flush env s = { s with calls := s.calls + 1 }) ∨
    ((log env s s.block_time s.commands).1 = true ∧
        flush env s = { s with calls := s.calls + 1, commands := [],
                               out := s.out ++ [{ time_stamp := s.block_time,
                                                  cmds := s.commands }] }) := by
  cases h : (log env s s.block_time s.commands).1
  · exact Or.inl ⟨rfl, flush_of_fail env s h⟩
  · exact Or.inr ⟨rfl, flush_of_ok env s h⟩

theorem flush_of_empty (env : Env) (s : State) (h : s.commands = []) :
    flush env s = { s with calls := s.calls + 1 } := by
  apply flush_of_fail
  cases hl : (log env s s.block_time s.commands).1
  · rfl
  · rw [log_fst_eq_true_iff] at hl
    exact absurd h hl.2.1

theorem flush_alwaysOpens (env : Env) (s : State) (henv : env.alwaysOpens)
    (hts : empty s.block_time = false) (hc : s.commands ≠ []) :
    flush env s = { s with calls := s.calls + 1, commands := [],
                           out := s.out ++ [{ time_stamp := s.block_time, cmds := s.commands }] } := by
  apply flush_of_ok
  rw [log_fst_eq_true_iff]
  exact ⟨hts, hc, henv _ _⟩

theorem ordinary_iff (line : String) :
    ordinary line = true ↔ line ≠ "\x7b" ∧ line ≠ "\x7d" ∧ line ≠ "EOF" := by
  simp [ordinary, and_assoc]

theorem step_ordinary_static (env : Env) (b : Nat) (s : State) (line : String)
    (hl : ordinary line = true) (hd : s.deep = 0) :
    step env b s line =
      (let s2 : State := { s with pos := s.pos + 1, commands := s.commands ++ [line],
                                  block_time := if s.commands = [] then
                                      get_current_time_stamp env s.pos else s.block_time }
       if s.commands.length + 1 = b then flush env s2 else s2) := by
  obtain ⟨h1, h2, -⟩ := (ordinary_iff line).1 hl
  cases hc : s.commands <;> simp [step, h1, h2, hd, hc]

theorem step_ordinary_dynamic (env : Env) (b : Nat) (s : State) (line : String)
    (hl : ordinary line = true) (hd : s.deep ≠ 0) :
    step env b s line = { s with pos := s.pos + 1, commands := s.commands ++ [line] } := by
  obtain ⟨h1, h2, -⟩ := (ordinary_iff line).1 hl
  simp [step, h1, h2, hd]

theorem step_open (env : Env) (b : Nat) (s : State) :
    step env b s "\x7b" =
      (let s1 : State := { s with pos := s.pos + 1, deep := s.deep + 1 }
       if s.deep = 0 then flush env s1 else s1) := by
  simp [step]

theorem step_close (env : Env) (b : Nat) (s : State) :
    step env b s "\x7d" =
      (let s1 : State := { s with pos := s.pos + 1, deep := s.deep - 1 }
       if s.deep = 1 then flush env s1 else s1) := by
  have : s.deep - 1 = 0 ↔ s.deep = 1 := by omega
  simp [step, this]

theorem readLoop_nil (env : Env) (b : Nat) (s : State) : readLoop env b s [] = s := rfl

theorem readLoop_cons (env : Env) (b : Nat) (s : State) (x : String) (xs : List String)
    (hx : x ≠ "EOF") :
    readLoop env b s (x :: xs) = readLoop env b (step env b s x) xs := by
  simp [readLoop, hx]

theorem readLoop_EOF (env : Env) (b : Nat) (s : State) (xs : List String) :
    readLoop env b s ("EOF" :: xs) = s := by
  simp [readLoop]

theorem readLoop_append (env : Env) (b : Nat) (s : State) (xs ys : List String)
    (hx : "EOF" ∉ xs) :
    readLoop env b s (xs ++ ys) = readLoop env b (readLoop env b s xs) ys := by
  induction xs generalizing s with
  | nil => rfl
  | cons x xs ih =>
    have hx1 : x ≠ "EOF" := fun h => hx (by simp [h])
    have hx2 : "EOF" ∉ xs := fun h => hx (by simp [h])
    rw [List.cons_append, readLoop_cons _ _ _ _ _ hx1, readLoop_cons _ _ _ _ _ hx1, ih _ hx2]

/-! ## Static blocks -/

theorem fullChunks_short (b : Nat) (l : List String) (h : l.length < b) :
    fullChunks b l = [] := by
  simp [fullChunks, Nat.div_eq_of_lt h]

theorem lastPart_short (b : Nat) (l : List String) (h : l.length < b) :
    lastPart b l = l := by
  simp [lastPart, Nat.div_eq_of_lt h]

theorem fullChunks_append (b : Nat) (hb : 1 ≤ b) (c l : List String) (hc : c.length = b) :
    fullChunks b (c ++ l) = c :: fullChunks b l := by
  have hdiv : (c ++ l).length / b = l.length / b + 1 := by
    rw [List.length_append, hc, Nat.add_comm, Nat.add_div_right _ (by omega)]
  unfold fullChunks
  rw [hdiv, List.range_succ_eq_map, List.map_cons, List.map_map]
  congr 1
  · simp [← hc]
  · apply List.map_congr_left
    intro i _
    have : (i + 1) * b = c.length + i * b := by rw [hc]; ring
    simp only [Function.comp, Nat.succ_eq_add_one, this]
    rw [List.drop_append]

theorem lastPart_append (b : Nat) (hb : 1 ≤ b) (c l : List String) (hc : c.length = b) :
    lastPart b (c ++ l) = lastPart b l := by
  have hdiv : (c ++ l).length / b = l.length / b + 1 := by
    rw [List.length_append, hc, Nat.add_comm, Nat.add_div_right _ (by omega)]
  unfold lastPart
  have : (l.length / b + 1) * b = c.length + l.length / b * b := by rw [hc]; ring
  rw [hdiv, this, List.drop_append]

/-- Reading ordinary lines at depth 0 when every file opens: the blocks written
are the full runs of `block_size` lines of what was pending followed by the
lines read, and the rest stays pending. -/
theorem static_ingest (env : Env) (henv : env.alwaysOpens) (b : Nat) (hb : 1 ≤ b)
    (xs : List String) (hxs : ∀ x ∈ xs, ordinary x = true) (s : State)
    (hd : s.deep = 0) (hlen : s.commands.length < b)
    (hts : s.commands ≠ [] → empty s.block_time = false) :
    (readLoop env b s xs).deep = 0 ∧
    (readLoop env b s xs).out.map (fun w => w.cmds) =
      s.out.map (fun w => w.cmds) ++ fullChunks b (s.commands ++ xs) ∧
    (readLoop env b s xs).commands = lastPart b (s.commands ++ xs) ∧
    ((empty s.block_time = false ∨ xs ≠ []) → empty (readLoop env b s xs).block_time = false) := by
  induction xs generalizing s with
  | nil =>
    simp only [readLoop_nil, List.append_nil]
    rw [fullChunks_short b _ hlen, lastPart_short b _ hlen]
    simp [hd]
  | cons x xs ih =>
    have hx : ordinary x = true := hxs x (by simp)
    have hxs1 : ∀ y ∈ xs, ordinary y = true := fun y hy => hxs y (by simp [hy])
    have hxe : x ≠ "EOF" := ((ordinary_iff x).1 hx).2.2
    rw [readLoop_cons _ _ _ _ _ hxe]
    have hbt : empty (if s.commands = [] then get_current_time_stamp env s.pos
        else s.block_time) = false := by
      split
      · exact empty_time_stamp _ _
      · rename_i hne; exact hts hne
    have e : s.commands ++ x :: xs = (s.commands ++ [x]) ++ xs := by simp
    by_cases hfull : s.commands.length + 1 = b
    · have hlen1 : (s.commands ++ [x]).length = b := by simp [hfull]
      have hst : step env b s x =
          { s with pos := s.pos + 1, commands := [], calls := s.calls + 1,
                   block_time := if s.commands = [] then get_current_time_stamp env s.pos
                                 else s.block_time,
                   out := s.out ++ [{ time_stamp := if s.commands = [] then
                                        get_current_time_stamp env s.pos else s.block_time,
                                      cmds := s.commands ++ [x] }] } := by
        rw [step_ordinary_static env b s x hx hd]
        simp only [if_pos hfull]
        rw [flush_alwaysOpens env _ henv hbt (by simp)]
      rw [hst]
      obtain ⟨h1, h2, h3, h4⟩ := ih hxs1
        { s with pos := s.pos + 1, commands := [], calls := s.calls + 1,
                 block_time := if s.commands = [] then get_current_time_stamp env s.pos
                               else s.block_time,
                 out := s.out ++ [{ time_stamp := if s.commands = [] then
                                      get_current_time_stamp env s.pos else s.block_time,
                                    cmds := s.commands ++ [x] }] }
        hd (by simp; omega) (by simp)
      refine ⟨h1, ?_, ?_, fun _ => h4 (Or.inl hbt)⟩
      · rw [h2, e, fullChunks_append b hb _ _ hlen1]; simp
      · rw [h3, e, lastPart_append b hb _ _ hlen1]; simp
    · have hst : step env b s x =
          { s with pos := s.pos + 1, commands := s.commands ++ [x],
                   block_time := if s.commands = [] then get_current_time_stamp env s.pos
                                 else s.block_time } := by
        rw [step_ordinary_static env b s x hx hd]
        simp only [if_neg hfull]
      rw [hst]
      obtain ⟨h1, h2, h3, h4⟩ := ih hxs1
        { s with pos := s.pos + 1, commands := s.commands ++ [x],
                 block_time := if s.commands = [] then get_current_time_stamp env s.pos
                               else s.block_time }
        hd (by simp; omega) (fun _ => hbt)
      refine ⟨h1, ?_, ?_, fun _ => h4 (Or.inl hbt)⟩
      · rw [h2, e]
      · rw [h3, e]

theorem envIdx_alwaysOpens : envIdx.alwaysOpens := fun _ _ => rfl

theorem mem_fullChunks_length (b : Nat) (l c : List String) (h : c ∈ fullChunks b l) :
    c.length = b := by
  simp only [fullChunks, List.mem_map, List.mem_range] at h
  obtain ⟨i, hi, rfl⟩ := h
  have h1 : (i + 1) * b ≤ l.length := by
    calc (i + 1) * b ≤ (l.length / b) * b := Nat.mul_le_mul_right _ hi
      _ ≤ l.length := Nat.div_mul_le_self _ _
  have h2 : (i + 1) * b = i * b + b := by ring
  simp only [List.length_take, List.length_drop]
  omega

/-- C1 (static chunking).  With `block_size = b ≥ 1`, input lines that are all
ordinary and files that always open, the blocks written while the lines are
read are the `n / b` consecutive runs of `b` lines, in input order, each of
exactly `b` lines; the final flush adds one block holding the last `n % b`
lines when `n % b > 0` and adds nothing when `n % b = 0`. -/
theorem static_chunking (env : Env) (henv : env.alwaysOpens) (b : Nat) (hb : 1 ≤ b)
    (xs : List String) (hxs : ∀ x ∈ xs, ordinary x = true) :
    (readLoop env b State.init xs).out.map (fun w => w.cmds) =
      (List.range (xs.length / b)).map (fun i => (xs.drop (i * b)).take b) ∧
    (∀ w ∈ (readLoop env b State.init xs).out, w.cmds.length = b) ∧
    (ProcessCommands env b xs).out.map (fun w => w.cmds) =
      (List.range (xs.length / b)).map (fun i => (xs.drop (i * b)).take b) ++
        (if xs.length % b > 0 then [xs.drop (xs.length - xs.length % b)] else []) := by
  obtain ⟨h1, h2, h3, h4⟩ := static_ingest env henv b hb xs hxs State.init rfl
    (by simp [State.init]; omega) (by simp [State.init])
  have h2' : (readLoop env b State.init xs).out.map (fun w => w.cmds) = fullChunks b xs := by
    simpa [State.init] using h2
  have h3' : (readLoop env b State.init xs).commands = lastPart b xs := by
    simpa [State.init] using h3
  have hdm : xs.length / b * b = xs.length - xs.length % b := by
    have := Nat.div_add_mod xs.length b
    have hc : xs.length / b * b = b * (xs.length / b) := Nat.mul_comm _ _
    omega
  refine ⟨h2', ?_, ?_⟩
  · intro w hw
    apply mem_fullChunks_length b xs
    rw [← h2']
    exact List.mem_map_of_mem _ hw
  · unfold ProcessCommands finalize
    by_cases hr : xs.length % b > 0
    · have hne : (readLoop env b State.init xs).commands ≠ [] := by
        rw [h3']
        intro h0
        have := congrArg List.length h0
        simp only [lastPart, List.length_drop, List.length_nil, hdm] at this
        have := Nat.mod_le xs.length b
        omega
      have hxne : xs ≠ [] := by
        intro h0; simp [h0] at hr
      have hcond : (!(readLoop env b State.init xs).commands.isEmpty &&
          decide ((readLoop env b State.init xs).deep = 0)) = true := by
        simp [h1, hne]
      rw [if_pos hcond, flush_alwaysOpens env _ henv (h4 (Or.inr hxne)) hne]
      simp only [List.map_append, List.map_cons, List.map_nil, if_pos hr]
      rw [h2', h3', lastPart, hdm]
      rfl
    · have he : (readLoop env b State.init xs).commands = [] := by
        rw [h3', lastPart, hdm]
        apply List.drop_of_length_le
        omega
      have hcond : ¬ ((!(readLoop env b State.init xs).commands.isEmpty &&
          decide ((readLoop env b State.init xs).deep = 0)) = true) := by
        simp [he]
      rw [if_neg hcond, if_neg hr, h2']
      simp [fullChunks]

/-- C1 at `block_size = 2` and input `a`, `b`, `c`: the blocks are `a, b` while
reading and then `c` at the end. -/
theorem static_chunking_witness :
    (readLoop envIdx 2 State.init ["a", "b", "c"]).out.map (fun w => w.cmds) = [["a", "b"]] ∧
    (ProcessCommands envIdx 2 ["a", "b", "c"]).out.map (fun w => w.cmds) = [["a", "b"], ["c"]] :=
  have h := static_chunking envIdx envIdx_alwaysOpens 2 (by decide) ["a", "b", "c"] (by decide)
  ⟨h.1, h.2.2⟩

/-! ## Dynamic blocks -/

theorem innerDepth_ordinary (d : Nat) (ys : List String) (h : ∀ y ∈ ys, ordinary y = true) :
    innerDepth d ys = some d := by
  induction ys with
  | nil => rfl
  | cons y ys ih =>
    obtain ⟨h1, h2, h3⟩ := (ordinary_iff y).1 (h y (by simp))
    simp only [innerDepth, if_neg h1, if_neg h2, if_neg h3]
    exact ih (fun z hz => h z (by simp [hz]))

theorem filter_ordinary_eq_self (ys : List String) (h : ∀ y ∈ ys, ordinary y = true) :
    ys.filter ordinary = ys :=
  List.filter_eq_self.2 h

theorem innerDepth_append (d d' : Nat) (zs ws : List String)
    (h : innerDepth d (zs ++ ws) = some d') : ∃ m, innerDepth d zs = some m := by
  induction zs generalizing d with
  | nil => exact ⟨d, rfl⟩
  | cons z zs ih =>
    simp only [List.cons_append, innerDepth] at h ⊢
    split_ifs at h ⊢ with h1 h2 h3 h4
    · exact ih _ h
    · exact ih _ h
    · exact ih _ h

theorem innerDepth_no_EOF (d d' : Nat) (ys : List String) (h : innerDepth d ys = some d') :
    "EOF" ∉ ys := by
  induction ys generalizing d with
  | nil => simp
  | cons y ys ih =>
    simp only [innerDepth] at h
    have hdec : ("EOF" : String) ≠ "\x7b" ∧ ("EOF" : String) ≠ "\x7d" := by decide
    split_ifs at h with h1 h2 h3 h4
    · simp only [List.mem_cons, not_or]
      exact ⟨fun e => hdec.1 (e.trans h1), ih _ h⟩
    · simp only [List.mem_cons, not_or]
      exact ⟨fun e => hdec.2 (e.trans h2), ih _ h⟩
    · simp only [List.mem_cons, not_or]
      exact ⟨fun e => h4 e.symm, ih _ h⟩

/-- Inside a block (depth at least 1) lines are only collected: nothing is
written, `log` is not called and the time stamp is not touched. -/
theorem dynamic_ingest (env : Env) (b : Nat) (ys : List String) (d d' : Nat)
    (h : innerDepth d ys = some d') (s : State) (hs : s.deep = (d : Int) + 1) :
    readLoop env b s ys =
      { s with commands := s.commands ++ ys.filter ordinary, deep := (d' : Int) + 1,
               pos := s.pos + ys.length } := by
  induction ys generalizing d s with
  | nil =>
    simp only [innerDepth, Option.some.injEq] at h
    subst h
    simp [readLoop_nil, ← hs]
  | cons y ys ih =>
    have hnd : s.deep ≠ 0 := by omega
    simp only [innerDepth] at h
    split_ifs at h with h1 h2 h3 h4
    · subst h1
      rw [readLoop_cons _ _ _ _ _ (by decide), step_open]
      simp only [if_neg hnd]
      rw [ih (d + 1) h _ (by simp [hs])]
      simp [ordinary]; omega
    · subst h2
      have hn1 : s.deep ≠ 1 := by omega
      rw [readLoop_cons _ _ _ _ _ (by decide), step_close]
      simp only [if_neg hn1]
      rw [ih (d - 1) h _ (by simp [hs]; omega)]
      simp [ordinary]; omega
    · have ho : ordinary y = true := (ordinary_iff y).2 ⟨h1, h2, h4⟩
      rw [readLoop_cons _ _ _ _ _ h4, step_ordinary_dynamic env b s y ho hnd]
      rw [ih d h _ (by simp [hs])]
      simp [ho]; omega

theorem step_open_static (env : Env) (henv : env.alwaysOpens) (b : Nat) (s : State)
    (hd : s.deep = 0) (hts : empty s.block_time = false) (hc : s.commands ≠ []) :
    step env b s "\x7b" =
      { s with pos := s.pos + 1, deep := 1, calls := s.calls + 1, commands := [],
               out := s.out ++ [{ time_stamp := s.block_time, cmds := s.commands }] } := by
  rw [step_open]
  simp only [if_pos hd]
  rw [flush_alwaysOpens env _ henv (by exact hts) (by exact hc)]
  simp [hd]

theorem step_open_static_empty (env : Env) (b : Nat) (s : State)
    (hd : s.deep = 0) (hc : s.commands = []) :
    step env b s "\x7b" = { s with pos := s.pos + 1, deep := 1, calls := s.calls + 1 } := by
  rw [step_open]
  simp only [if_pos hd]
  rw [flush_of_empty env _ (by exact hc)]
  simp [hd]

theorem step_close_outer (env : Env) (henv : env.alwaysOpens) (b : Nat) (s : State)
    (hd : s.deep = 1) (hts : empty s.block_time = false) (hc : s.commands ≠ []) :
    step env b s "\x7d" =
      { s with pos := s.pos + 1, deep := 0, calls := s.calls + 1, commands := [],
               out := s.out ++ [{ time_stamp := s.block_time, cmds := s.commands }] } := by
  rw [step_close]
  simp only [if_pos hd]
  rw [flush_alwaysOpens env _ henv (by exact hts) (by exact hc)]
  simp [hd]

theorem not_EOF_mem_of_ordinary (xs : List String) (h : ∀ x ∈ xs, ordinary x = true) :
    "EOF" ∉ xs := by
  intro hm
  have := h _ hm
  simp [ordinary] at this

theorem finalize_static (env : Env) (henv : env.alwaysOpens) (s : State)
    (hd : s.deep = 0) (hts : empty s.block_time = false) (hc : s.commands ≠ []) :
    finalize env s =
      { s with calls := s.calls + 1, commands := [],
               out := s.out ++ [{ time_stamp := s.block_time, cmds := s.commands }] } := by
  unfold finalize
  have hcond : (!s.commands.isEmpty && decide (s.deep = 0)) = true := by simp [hd, hc]
  rw [if_pos hcond, flush_alwaysOpens env s henv hts hc]

/-- C4 (batch boundaries at mode switches).  With files that always open,
`p` ordinary lines (`1 ≤ p < block_size`), then `{`, then `k ≥ 1` ordinary
lines, then `}`, then `q` ordinary lines (`1 ≤ q < block_size`): nothing is
written while the first `p` lines are read, the `p` lines are written when `{`
is processed, nothing more while the `k` lines are read, the `k` lines are
written when `}` is processed, nothing more while the `q` lines are read, and
the final flush writes the `q` lines. -/
theorem mode_switch_batches (env : Env) (henv : env.alwaysOpens) (b : Nat)
    (ps ks qs : List String)
    (hps : ∀ x ∈ ps, ordinary x = true) (hks : ∀ x ∈ ks, ordinary x = true)
    (hqs : ∀ x ∈ qs, ordinary x = true)
    (hp1 : ps ≠ []) (hk1 : ks ≠ []) (hq1 : qs ≠ [])
    (hpb : ps.length < b) (hqb : qs.length < b) :
    (readLoop env b State.init ps).out = [] ∧
    (readLoop env b State.init (ps ++ ["\x7b"])).out.map (fun w => w.cmds) = [ps] ∧
    (readLoop env b State.init (ps ++ ["\x7b"] ++ ks)).out.map (fun w => w.cmds) = [ps] ∧
    (readLoop env b State.init (ps ++ ["\x7b"] ++ ks ++ ["\x7d"])).out.map (fun w => w.cmds)
      = [ps, ks] ∧
    (readLoop env b State.init (ps ++ ["\x7b"] ++ ks ++ ["\x7d"] ++ qs)).out.map (fun w => w.cmds)
      = [ps, ks] ∧
    (ProcessCommands env b (ps ++ ["\x7b"] ++ ks ++ ["\x7d"] ++ qs)).out.map (fun w => w.cmds)
      = [ps, ks, qs] := by
  have hb : 1 ≤ b := by omega
  have hpE := not_EOF_mem_of_ordinary ps hps
  have hkE := not_EOF_mem_of_ordinary ks hks
  have hbr : ("EOF" : String) ≠ "\x7b" ∧ ("EOF" : String) ≠ "\x7d" := by decide
  -- the first static block
  obtain ⟨a1, a2, a3, a4⟩ := static_ingest env henv b hb ps hps State.init rfl
    (by simp [State.init]; omega) (by simp [State.init])
  generalize hs1 : readLoop env b State.init ps = s1 at a1 a2 a3 a4
  have a2' : s1.out = [] := by
    rw [fullChunks_short b _ (by simpa [State.init] using hpb)] at a2
    simpa [State.init] using a2
  have a3' : s1.commands = ps := by
    rw [a3]; simpa [State.init] using lastPart_short b ps hpb
  have a4' : empty s1.block_time = false := a4 (Or.inr hp1)
  -- the opening delimiter
  have e2 : readLoop env b State.init (ps ++ ["\x7b"]) = step env b s1 "\x7b" := by
    rw [readLoop_append _ _ _ _ _ hpE, hs1, readLoop_cons _ _ _ _ _ (by decide), readLoop_nil]
  rw [step_open_static env henv b s1 a1 a4' (by rw [a3']; exact hp1)] at e2
  generalize hs2 : readLoop env b State.init (ps ++ ["\x7b"]) = s2 at e2
  -- the lines of the dynamic block
  have e3 : readLoop env b State.init (ps ++ ["\x7b"] ++ ks) = readLoop env b s2 ks := by
    rw [readLoop_append _ _ _ _ _ (by simp [hpE, hbr.1]), hs2]
  rw [dynamic_ingest env b ks 0 0 (innerDepth_ordinary 0 ks hks) s2 (by simp [e2]),
    filter_ordinary_eq_self ks hks] at e3
  generalize hs3 : readLoop env b State.init (ps ++ ["\x7b"] ++ ks) = s3 at e3
  -- the closing delimiter
  have e4 : readLoop env b State.init (ps ++ ["\x7b"] ++ ks ++ ["\x7d"]) = step env b s3 "\x7d" := by
    rw [readLoop_append _ _ _ _ _ (by simp [hpE, hkE, hbr.1]), hs3,
      readLoop_cons _ _ _ _ _ (by decide), readLoop_nil]
  rw [step_close_outer env henv b s3 (by simp [e3]) (by simp [e3, e2, a4'])
    (by simp [e3, e2, hk1])] at e4
  generalize hs4 : readLoop env b State.init (ps ++ ["\x7b"] ++ ks ++ ["\x7d"]) = s4 at e4
  -- the second static block
  have e5 : readLoop env b State.init (ps ++ ["\x7b"] ++ ks ++ ["\x7d"] ++ qs)
      = readLoop env b s4 qs := by
    rw [readLoop_append _ _ _ _ _ (by simp [hpE, hkE, hbr.1, hbr.2]), hs4]
  obtain ⟨c1, c2, c3, c4⟩ := static_ingest env henv b hb qs hqs s4 (by simp [e4])
    (by simp [e4]; omega) (by simp [e4])
  have hout4 : s4.out.map (fun w => w.cmds) = [ps, ks] := by
    simp [e4, e3, e2, a2', a3']
  have c2' : (readLoop env b s4 qs).out.map (fun w => w.cmds) = [ps, ks] := by
    rw [c2, hout4, fullChunks_short b _ (by simp [e4]; omega)]; simp
  have c3' : (readLoop env b s4 qs).commands = qs := by
    rw [c3, lastPart_short b _ (by simp [e4]; omega)]; simp [e4]
  refine ⟨a2', ?_, ?_, hout4, ?_, ?_⟩
  · simp [e2, a2', a3']
  · simp [e3, e2, a2', a3']
  · rw [e5, c2']
  · unfold ProcessCommands
    rw [e5, finalize_static env henv _ c1 (c4 (Or.inr hq1)) (by rw [c3']; exact hq1)]
    simp [c2', c3']

/-- C4 at `block_size = 10` and input `a`, `b`, `{`, `c`, `}`, `d`. -/
theorem mode_switch_batches_witness :
    (readLoop envIdx 10 State.init ["a", "b"]).out = [] ∧
    (readLoop envIdx 10 State.init ["a", "b", "\x7b"]).out.map (fun w => w.cmds) = [["a", "b"]] ∧
    (readLoop envIdx 10 State.init ["a", "b", "\x7b", "c"]).out.map (fun w => w.cmds)
      = [["a", "b"]] ∧
    (readLoop envIdx 10 State.init ["a", "b", "\x7b", "c", "\x7d"]).out.map (fun w => w.cmds)
      = [["a", "b"], ["c"]] ∧
    (readLoop envIdx 10 State.init ["a", "b", "\x7b", "c", "\x7d", "d"]).out.map (fun w => w.cmds)
      = [["a", "b"], ["c"]] ∧
    (ProcessCommands envIdx 10 ["a", "b", "\x7b", "c", "\x7d", "d"]).out.map (fun w => w.cmds)
      = [["a", "b"], ["c"], ["d"]] :=
  mode_switch_batches envIdx envIdx_alwaysOpens 10 ["a", "b"] ["c"] ["d"]
    (by decide) (by decide) (by decide) (by decide) (by decide) (by decide)
    (by decide) (by decide)

/-- C2 on the code.  From the initial state the block `{`, `a`, `b`, `}` is never
written, whatever the block size and whether or not files open: `block_time`
is still empty when `}` is processed, so `log` refuses the block, and it
refuses it again in the final flush; the two commands stay pending. -/
theorem open_close_pair_from_start_not_written (env : Env) (b : Nat) :
    (ProcessCommands env b ["\x7b", "a", "b", "\x7d"]).out = [] ∧
    (ProcessCommands env b ["\x7b", "a", "b", "\x7d"]).commands = ["a", "b"] ∧
    (ProcessCommands env b ["\x7b", "a", "b", "\x7d"]).block_time = "" ∧
    (ProcessCommands env b ["\x7b", "a", "b", "\x7d"]).calls = 3 := by
  simp [ProcessCommands, finalize, readLoop, step, flush, log_eq, State.init, empty]

/-- C3 on the code.  In the run `a`, `b`, `{`, `c`, `}`, `d` with block size 10
and a clock that shows the index of the line, the block `c` is written with
the time stamp `0` taken when `a` was accepted, while the clock showed `3`
when `c` was accepted. -/
theorem dynamic_block_keeps_old_time_stamp :
    (ProcessCommands envIdx 10 ["a", "b", "\x7b", "c", "\x7d", "d"]).out =
      [{ time_stamp := "0", cmds := ["a", "b"] },
       { time_stamp := "0", cmds := ["c"] },
       { time_stamp := "5", cmds := ["d"] }] ∧
    get_current_time_stamp envIdx 3 = "3" := by
  decide

/-- C5 (nested delimiters).  From a state at depth 0 with nothing pending and a
non-empty time stamp, with files that always open: after `{` and any part of a
body `ys` made of ordinary lines and correctly nested `{`/`}` pairs, nothing has
been written and `log` has been called only once, for the outer `{`; when the
matching outer `}` is processed, exactly one block is written, holding all
ordinary lines of `ys` in their original order. -/
theorem nested_block_single_write (env : Env) (henv : env.alwaysOpens) (b : Nat) (s : State)
    (hd : s.deep = 0) (hc : s.commands = []) (hts : empty s.block_time = false)
    (ys : List String) (hn : innerDepth 0 ys = some 0)
    (hord : ∃ y ∈ ys, ordinary y = true) :
    (∀ zs ws, ys = zs ++ ws →
      (readLoop env b s ("\x7b" :: zs)).out = s.out ∧
      (readLoop env b s ("\x7b" :: zs)).calls = s.calls + 1) ∧
    (readLoop env b s ("\x7b" :: ys ++ ["\x7d"])).out =
      s.out ++ [{ time_stamp := s.block_time, cmds := ys.filter ordinary }] ∧
    (readLoop env b s ("\x7b" :: ys ++ ["\x7d"])).calls = s.calls + 2 ∧
    (readLoop env b s ("\x7b" :: ys ++ ["\x7d"])).commands = [] ∧
    (readLoop env b s ("\x7b" :: ys ++ ["\x7d"])).deep = 0 := by
  have hopen := step_open_static_empty env b s hd hc
  have hpre : ∀ zs ws, ys = zs ++ ws →
      (readLoop env b s ("\x7b" :: zs)).out = s.out ∧
      (readLoop env b s ("\x7b" :: zs)).calls = s.calls + 1 := by
    intro zs ws hy
    obtain ⟨m, hm⟩ := innerDepth_append 0 0 zs ws (hy ▸ hn)
    rw [readLoop_cons _ _ _ _ _ (by decide), hopen,
      dynamic_ingest env b zs 0 m hm _ (by simp)]
    simp
  have hfil : ys.filter ordinary ≠ [] := by
    obtain ⟨y, hy, ho⟩ := hord
    intro h0
    have : y ∈ ys.filter ordinary := List.mem_filter.2 ⟨hy, ho⟩
    rw [h0] at this
    simp at this
  have hfull : readLoop env b s ("\x7b" :: ys ++ ["\x7d"]) =
      { s with pos := s.pos + 1 + ys.length + 1, deep := 0, calls := s.calls + 2,
               commands := [],
               out := s.out ++ [{ time_stamp := s.block_time, cmds := ys.filter ordinary }] } := by
    rw [List.cons_append, readLoop_cons _ _ _ _ _ (by decide), hopen,
      readLoop_append _ _ _ _ _ (innerDepth_no_EOF 0 0 ys hn),
      dynamic_ingest env b ys 0 0 hn _ (by simp),
      readLoop_cons _ _ _ _ _ (by decide), readLoop_nil,
      step_close_outer env henv b _ (by simp) (by simpa using hts) (by simpa [hc] using hfil)]
    simp [hc]
  refine ⟨hpre, ?_, ?_, ?_, ?_⟩ <;> rw [hfull]

/-- C5 on a state reached after the block `x` was written: the body `a`, `{`,
`b`, `}`, `c` between the outer delimiters is written as one block. -/
theorem nested_block_single_write_witness :
    (readLoop envIdx 2
        { commands := [], deep := 0, block_time := "7", pos := 1, calls := 1,
          out := [{ time_stamp := "7", cmds := ["x"] }] }
        ("\x7b" :: ["a", "\x7b", "b", "\x7d", "c"] ++ ["\x7d"])).out =
      [{ time_stamp := "7", cmds := ["x"] }, { time_stamp := "7", cmds := ["a", "b", "c"] }] :=
  (nested_block_single_write envIdx envIdx_alwaysOpens 2
    { commands := [], deep := 0, block_time := "7", pos := 1, calls := 1,
      out := [{ time_stamp := "7", cmds := ["x"] }] }
    rfl rfl (by decide) ["a", "\x7b", "b", "\x7d", "c"] (by decide)
    ⟨"a", by decide, by decide⟩).2.1

/-- C6 (no size-triggered flush in dynamic mode).  At any depth above 0 an
ordinary line is appended at the end of the pending commands; `log` is not
called, nothing is written, and depth and time stamp stay as they are,
whatever the block size and the number of pending commands. -/
theorem no_size_flush_in_dynamic_mode (env : Env) (b : Nat) (s : State) (line : String)
    (hd : 0 < s.deep) (hl : ordinary line = true) :
    (step env b s line).commands = s.commands ++ [line] ∧
    (step env b s line).deep = s.deep ∧
    (step env b s line).block_time = s.block_time ∧
    (step env b s line).calls = s.calls ∧
    (step env b s line).out = s.out := by
  rw [step_ordinary_dynamic env b s line hl (by omega)]
  simp

/-- C6 at block size 2 with three commands already pending. -/
theorem no_size_flush_in_dynamic_mode_witness :
    (step envIdx 2 { commands := ["a", "b", "c"], deep := 1, block_time := "0", pos := 4,
                     calls := 1, out := [] } "d").commands = ["a", "b", "c", "d"] :=
  (no_size_flush_in_dynamic_mode envIdx 2
    { commands := ["a", "b", "c"], deep := 1, block_time := "0", pos := 4, calls := 1, out := [] }
    "d" (by decide) (by decide)).1

/-! ## What a step can do to the pending block and the output -/

theorem consumed_of_no_EOF (xs : List String) (h : "EOF" ∉ xs) : consumed xs = xs := by
  unfold consumed
  rw [List.takeWhile_eq_self_iff]
  intro x hx
  have : x ≠ "EOF" := fun e => h (e ▸ hx)
  simpa using this

theorem consumed_cons (x : String) (xs : List String) (hx : x ≠ "EOF") :
    consumed (x :: xs) = x :: consumed xs := by
  simp [consumed, List.takeWhile_cons, hx]

theorem consumed_EOF (xs : List String) : consumed ("EOF" :: xs) = [] := by
  simp [consumed, List.takeWhile_cons]

theorem readLoop_consumed (env : Env) (b : Nat) (s : State) (ls : List String) :
    readLoop env b s (consumed ls) = readLoop env b s ls := by
  induction ls generalizing s with
  | nil => rfl
  | cons x xs ih =>
    by_cases hx : x = "EOF"
    · subst hx
      rw [consumed_EOF, readLoop_EOF, readLoop_nil]
    · rw [consumed_cons x xs hx, readLoop_cons _ _ _ _ _ hx, readLoop_cons _ _ _ _ _ hx, ih]

/-- A flush either changes nothing but the call counter, or writes the pending
commands (non-empty, with a non-empty time stamp) and clears them. -/
theorem flush_effect (env : Env) (s : State) :
    ((log env s s.block_time s.commands).1 = false ∧
      (flush env s).out = s.out ∧ (flush env s).commands = s.commands ∧
      (flush env s).block_time = s.block_time ∧ (flush env s).deep = s.deep) ∨
    ((log env s s.block_time s.commands).1 = true ∧
      empty s.block_time = false ∧ s.commands ≠ [] ∧
      (flush env s).out = s.out ++ [{ time_stamp := s.block_time, cmds := s.commands }] ∧
      (flush env s).commands = [] ∧
      (flush env s).block_time = s.block_time ∧ (flush env s).deep = s.deep) := by
  rcases flush_cases env s with ⟨h, e⟩ | ⟨h, e⟩
  · left; rw [e]; exact ⟨h, rfl, rfl, rfl, rfl⟩
  · right
    have h' := (log_fst_eq_true_iff env s _ _).1 h
    rw [e]; exact ⟨h, h'.1, h'.2.1, rfl, rfl, rfl, rfl⟩

/-- A step first appends the line when it is ordinary (taking a fresh time
stamp only when nothing is pending) and then either flushes or does not. -/
theorem step_shape (env : Env) (b : Nat) (s : State) (x : String) (hx : x ≠ "EOF") :
    ∃ s1 : State, s1.out = s.out ∧ s1.commands = s.commands ++ [x].filter ordinary ∧
      (s.commands ≠ [] → s1.block_time = s.block_time) ∧
      (s1.commands ≠ [] → empty s.block_time = false → empty s1.block_time = false) ∧
      (step env b s x = s1 ∨ step env b s x = flush env s1) := by
  by_cases h1 : x = "\x7b"
  · subst h1
    refine ⟨{ s with pos := s.pos + 1, deep := s.deep + 1 }, rfl, by simp [ordinary],
      fun _ => rfl, fun _ h => h, ?_⟩
    rw [step_open]
    by_cases hd : s.deep = 0 <;> simp [hd]
  by_cases h2 : x = "\x7d"
  · subst h2
    refine ⟨{ s with pos := s.pos + 1, deep := s.deep - 1 }, rfl, by simp [ordinary],
      fun _ => rfl, fun _ h => h, ?_⟩
    rw [step_close]
    by_cases hd : s.deep = 1 <;> simp [hd]
  have ho : ordinary x = true := (ordinary_iff x).2 ⟨h1, h2, hx⟩
  by_cases hd : s.deep = 0
  · refine ⟨{ s with pos := s.pos + 1, commands := s.commands ++ [x],
                     block_time := if s.commands = [] then
                       get_current_time_stamp env s.pos else s.block_time },
      rfl, by simp [ho], fun hne => by simp [hne], fun _ h => ?_, ?_⟩
    · show empty (if s.commands = [] then get_current_time_stamp env s.pos
        else s.block_time) = false
      split
      · exact empty_time_stamp _ _
      · exact h
    · rw [step_ordinary_static env b s x ho hd]
      by_cases hf : s.commands.length + 1 = b <;> simp [hf]
  · refine ⟨{ s with pos := s.pos + 1, commands := s.commands ++ [x] },
      rfl, by simp [ho], fun _ => rfl, fun _ h => h, ?_⟩
    rw [step_ordinary_dynamic env b s x ho hd]
    exact Or.inl rfl

/-- A step either writes nothing and keeps what is pending (with the new line
appended when it is ordinary), or writes exactly what is pending together with
the new line and leaves nothing pending. -/
theorem step_cases (env : Env) (b : Nat) (s : State) (x : String) (hx : x ≠ "EOF") :
    ((step env b s x).out = s.out ∧
      (step env b s x).commands = s.commands ++ [x].filter ordinary ∧
      (s.commands ≠ [] → (step env b s x).block_time = s.block_time)) ∨
    (∃ ts, empty ts = false ∧ (s.commands ≠ [] → ts = s.block_time) ∧
      s.commands ++ [x].filter ordinary ≠ [] ∧
      (step env b s x).out =
        s.out ++ [{ time_stamp := ts, cmds := s.commands ++ [x].filter ordinary }] ∧
      (step env b s x).commands = []) := by
  obtain ⟨s1, ho, hc, hb, -, hst⟩ := step_shape env b s x hx
  rcases hst with e | e
  · left; rw [e]; exact ⟨ho, hc, hb⟩
  · rcases flush_effect env s1 with ⟨-, f1, f2, f3, -⟩ | ⟨-, g1, g2, g3, g4, -, -⟩
    · left; rw [e, f1, f2, f3]; exact ⟨ho, hc, hb⟩
    · right
      refine ⟨s1.block_time, g1, hb, hc ▸ g2, ?_, ?_⟩
      · rw [e, g3, ho, hc]
      · rw [e, g4]

/-- The final flush either writes nothing and keeps what is pending, or writes
exactly what is pending and leaves nothing pending. -/
theorem finalize_cases (env : Env) (s : State) :
    ((finalize env s).out = s.out ∧ (finalize env s).commands = s.commands ∧
      (finalize env s).block_time = s.block_time) ∨
    (empty s.block_time = false ∧ s.commands ≠ [] ∧ s.deep = 0 ∧
      (finalize env s).out = s.out ++ [{ time_stamp := s.block_time, cmds := s.commands }] ∧
      (finalize env s).commands = []) := by
  unfold finalize
  split
  · rename_i hcond
    have hd : s.deep = 0 := by
      simp only [Bool.and_eq_true, decide_eq_true_eq] at hcond
      exact hcond.2
    rcases flush_effect env s with ⟨-, f1, f2, f3, -⟩ | ⟨-, g1, g2, g3, g4, -, -⟩
    · exact Or.inl ⟨f1, f2, f3⟩
    · exact Or.inr ⟨g1, g2, hd, g3, g4⟩
  · exact Or.inl ⟨rfl, rfl, rfl⟩

/-- A step moves commands from pending to the output but never drops or
repeats one. -/
theorem step_conserves (env : Env) (b : Nat) (s : State) (x : String) (hx : x ≠ "EOF") :
    written (step env b s x) ++ (step env b s x).commands =
      written s ++ s.commands ++ [x].filter ordinary := by
  rcases step_cases env b s x hx with ⟨h1, h2, -⟩ | ⟨ts, -, -, -, h1, h2⟩
  · simp [written, h1, h2]
  · simp [written, h1, h2]

theorem finalize_conserves (env : Env) (s : State) :
    written (finalize env s) ++ (finalize env s).commands = written s ++ s.commands := by
  rcases finalize_cases env s with ⟨h1, h2, -⟩ | ⟨-, -, -, h1, h2⟩
  · simp [written, h1, h2]
  · simp [written, h1, h2]

/-- Every ordinary line read is, in input order, either written or pending. -/
theorem readLoop_conserves (env : Env) (b : Nat) (s : State) (ls : List String) :
    written (readLoop env b s ls) ++ (readLoop env b s ls).commands =
      written s ++ s.commands ++ (consumed ls).filter ordinary := by
  induction ls generalizing s with
  | nil => simp [readLoop_nil, consumed]
  | cons x xs ih =>
    by_cases hx : x = "EOF"
    · subst hx
      simp [readLoop_EOF, consumed_EOF]
    · rw [readLoop_cons _ _ _ _ _ hx, ih, step_conserves env b s x hx, consumed_cons x xs hx]
      simp [List.filter_cons]
      split <;> simp

/-- The output only grows. -/
theorem readLoop_out_grows (env : Env) (b : Nat) (s : State) (ls : List String) :
    ∃ ws, (readLoop env b s ls).out = s.out ++ ws := by
  induction ls generalizing s with
  | nil => exact ⟨[], by simp [readLoop_nil]⟩
  | cons x xs ih =>
    by_cases hx : x = "EOF"
    · subst hx
      exact ⟨[], by simp [readLoop_EOF]⟩
    · rw [readLoop_cons _ _ _ _ _ hx]
      obtain ⟨ws, hws⟩ := ih (step env b s x)
      rcases step_cases env b s x hx with ⟨h1, -, -⟩ | ⟨ts, -, -, -, h1, -⟩
      · exact ⟨ws, by rw [hws, h1]⟩
      · exact ⟨{ time_stamp := ts, cmds := s.commands ++ [x].filter ordinary } :: ws,
          by rw [hws, h1]; simp⟩

/-- As long as nothing is written, the pending commands are kept, the ordinary
lines read are appended to them, and a time stamp that belongs to pending
commands is kept. -/
theorem readLoop_quiet (env : Env) (b : Nat) (s : State) (ls : List String)
    (hq : (readLoop env b s ls).out = s.out) :
    (readLoop env b s ls).commands = s.commands ++ (consumed ls).filter ordinary ∧
    (s.commands ≠ [] → (readLoop env b s ls).block_time = s.block_time) := by
  induction ls generalizing s with
  | nil => simp [readLoop_nil, consumed]
  | cons x xs ih =>
    by_cases hx : x = "EOF"
    · subst hx
      simp [readLoop_EOF, consumed_EOF]
    · rw [readLoop_cons _ _ _ _ _ hx] at hq ⊢
      obtain ⟨ws, hws⟩ := readLoop_out_grows env b (step env b s x) xs
      rcases step_cases env b s x hx with ⟨h1, h2, h3⟩ | ⟨ts, -, -, -, h1, -⟩
      · obtain ⟨i1, i2⟩ := ih (step env b s x) (by rw [hq, h1])
        rw [consumed_cons x xs hx, List.filter_cons]
        constructor
        · rw [i1, h2]
          by_cases ho : ordinary x = true <;> simp [ho]
        · intro hne
          rw [i2 (by rw [h2]; simp [hne]), h3 hne]
      · exfalso
        rw [hws, h1] at hq
        have := congrArg List.length hq
        simp at this

theorem flush_writes_ok (env : Env) (s : State)
    (h : ∀ w ∈ s.out, w.cmds ≠ [] ∧ empty w.time_stamp = false) :
    ∀ w ∈ (flush env s).out, w.cmds ≠ [] ∧ empty w.time_stamp = false := by
  rcases flush_effect env s with ⟨-, f1, -⟩ | ⟨-, g1, g2, g3, -⟩
  · rw [f1]; exact h
  · rw [g3]
    intro w hw
    rcases List.mem_append.1 hw with hw | hw
    · exact h w hw
    · simp only [List.mem_singleton] at hw
      subst hw
      exact ⟨g2, g1⟩

theorem step_writes_ok (env : Env) (b : Nat) (s : State) (x : String) (hx : x ≠ "EOF")
    (h : ∀ w ∈ s.out, w.cmds ≠ [] ∧ empty w.time_stamp = false) :
    ∀ w ∈ (step env b s x).out, w.cmds ≠ [] ∧ empty w.time_stamp = false := by
  obtain ⟨s1, ho, -, -, -, hst⟩ := step_shape env b s x hx
  rcases hst with e | e
  · rw [e, ho]; exact h
  · rw [e]; exact flush_writes_ok env s1 (ho ▸ h)

theorem readLoop_writes_ok (env : Env) (b : Nat) (s : State) (ls : List String)
    (h : ∀ w ∈ s.out, w.cmds ≠ [] ∧ empty w.time_stamp = false) :
    ∀ w ∈ (readLoop env b s ls).out, w.cmds ≠ [] ∧ empty w.time_stamp = false := by
  induction ls generalizing s with
  | nil => exact h
  | cons x xs ih =>
    by_cases hx : x = "EOF"
    · subst hx
      rw [readLoop_EOF]; exact h
    · rw [readLoop_cons _ _ _ _ _ hx]
      exact ih _ (step_writes_ok env b s x hx h)

theorem finalize_writes_ok (env : Env) (s : State)
    (h : ∀ w ∈ s.out, w.cmds ≠ [] ∧ empty w.time_stamp = false) :
    ∀ w ∈ (finalize env s).out, w.cmds ≠ [] ∧ empty w.time_stamp = false := by
  unfold finalize
  split
  · exact flush_writes_ok env s h
  · exact h

theorem finalize_of_deep_ne_zero (env : Env) (s : State) (h : s.deep ≠ 0) :
    finalize env s = s := by
  unfold finalize
  simp [h]

/-- C7 (terminator).  For every block size and environment, every `xs` without
`EOF` and every `ys`: the run on `xs`, `EOF`, `ys` ends in the same state (same
writes, final flush included, same pending commands) as the run on `xs` alone,
at whatever depth `EOF` is read; and what has been written or is pending at the
end consists of ordinary lines of `xs` only, so neither `EOF` nor a line after
it is stored or written. -/
theorem terminator_ends_input (env : Env) (b : Nat) (xs ys : List String)
    (hx : "EOF" ∉ xs) :
    ProcessCommands env b (xs ++ ["EOF"] ++ ys) = ProcessCommands env b xs ∧
    written (ProcessCommands env b (xs ++ ["EOF"] ++ ys)) ++
        (ProcessCommands env b (xs ++ ["EOF"] ++ ys)).commands = xs.filter ordinary := by
  have e : readLoop env b State.init (xs ++ ["EOF"] ++ ys) = readLoop env b State.init xs := by
    rw [List.append_assoc, readLoop_append _ _ _ _ _ hx, List.singleton_append, readLoop_EOF]
  refine ⟨by unfold ProcessCommands; rw [e], ?_⟩
  unfold ProcessCommands
  rw [e, finalize_conserves, readLoop_conserves, consumed_of_no_EOF xs hx]
  simp [written, State.init]

/-- C7 with `EOF` read at depth 1. -/
theorem terminator_ends_input_witness :
    ProcessCommands envIdx 2 (["a", "\x7b", "b"] ++ ["EOF"] ++ ["c", "\x7d"]) =
      ProcessCommands envIdx 2 ["a", "\x7b", "b"] :=
  (terminator_ends_input envIdx 2 ["a", "\x7b", "b"] ["c", "\x7d"] (by decide)).1

/-- C8 (never flushed while empty).  In every run every block written has at
least one command and a non-empty time stamp; and a flush with nothing pending
or with an empty time stamp is refused by `log` and changes nothing except the
count of `log` calls. -/
theorem never_flushed_while_empty (env : Env) (b : Nat) (input : List String) :
    (∀ w ∈ (ProcessCommands env b input).out, w.cmds ≠ [] ∧ empty w.time_stamp = false) ∧
    (∀ s : State, s.commands = [] ∨ empty s.block_time = true →
      (log env s s.block_time s.commands).1 = false ∧
      flush env s = { s with calls := s.calls + 1 }) := by
  constructor
  · unfold ProcessCommands
    apply finalize_writes_ok
    apply readLoop_writes_ok
    intro w hw
    simp [State.init] at hw
  · intro s hs
    have hf : (log env s s.block_time s.commands).1 = false := by
      cases hl : (log env s s.block_time s.commands).1
      · rfl
      · rw [log_fst_eq_true_iff] at hl
        rcases hs with h | h
        · exact absurd h hl.2.1
        · rw [hl.1] at h; exact absurd h (by decide)
    exact ⟨hf, flush_of_fail env s hf⟩

/-- C9 (unbalanced end of stream).  When the loop ends, by `EOF` or at the end
of the input, at a depth other than 0, the final flush does nothing: `log` is
not called, nothing is written and the pending commands stay pending.  The
ordinary lines read are then the written commands followed by the pending ones,
so the pending commands are in no block written. -/
theorem unbalanced_end_not_flushed (env : Env) (b : Nat) (input : List String)
    (hd : (readLoop env b State.init input).deep ≠ 0) :
    ProcessCommands env b input = readLoop env b State.init input ∧
    (ProcessCommands env b input).calls = (readLoop env b State.init input).calls ∧
    (ProcessCommands env b input).out = (readLoop env b State.init input).out ∧
    (ProcessCommands env b input).commands = (readLoop env b State.init input).commands ∧
    written (ProcessCommands env b input) ++ (ProcessCommands env b input).commands =
      (consumed input).filter ordinary := by
  have e : ProcessCommands env b input = readLoop env b State.init input := by
    unfold ProcessCommands
    exact finalize_of_deep_ne_zero env _ hd
  refine ⟨e, by rw [e], by rw [e], by rw [e], ?_⟩
  rw [e, readLoop_conserves]
  simp [written, State.init]

/-- C9 on `a`, `{`, `b`, `c`, `EOF` with block size 5: `a` is written at the
`{`, and `b`, `c` are still pending after the final flush. -/
theorem unbalanced_end_not_flushed_witness :
    ProcessCommands envIdx 5 ["a", "\x7b", "b", "c", "EOF"] =
      { commands := ["b", "c"], deep := 1, block_time := "0", pos := 4, calls := 1,
        out := [{ time_stamp := "0", cmds := ["a"] }] } :=
  (unbalanced_end_not_flushed envIdx 5 ["a", "\x7b", "b", "c", "EOF"] (by decide)).1.trans
    (by decide)

/-- C10 (failed flush keeps the batch).  When `log` reports failure in a flush:
the pending commands, the time stamp, the depth and the output are as before;
as long as nothing is written afterwards, the ordinary lines read are appended
after the retained commands and the time stamp of retained commands is kept;
and the next block written, by a later line or by the final flush, holds the
retained commands followed by the ordinary lines read since, in input order,
under the retained time stamp when commands were retained. -/
theorem failed_flush_keeps_batch (env : Env) (b : Nat) (s : State)
    (hfail : (log env s s.block_time s.commands).1 = false) :
    ((flush env s).commands = s.commands ∧ (flush env s).block_time = s.block_time ∧
      (flush env s).deep = s.deep ∧ (flush env s).out = s.out) ∧
    (∀ ls, (readLoop env b (flush env s) ls).out = s.out →
      (readLoop env b (flush env s) ls).commands =
        s.commands ++ (consumed ls).filter ordinary ∧
      (s.commands ≠ [] → (readLoop env b (flush env s) ls).block_time = s.block_time)) ∧
    (∀ ls x, "EOF" ∉ ls → x ≠ "EOF" → (readLoop env b (flush env s) ls).out = s.out →
      (readLoop env b (flush env s) (ls ++ [x])).out = s.out ∨
      ∃ ts, (s.commands ≠ [] → ts = s.block_time) ∧
        (readLoop env b (flush env s) (ls ++ [x])).out =
          s.out ++ [{ time_stamp := ts, cmds := s.commands ++ (ls ++ [x]).filter ordinary }]) ∧
    (∀ ls, (readLoop env b (flush env s) ls).out = s.out →
      (finalize env (readLoop env b (flush env s) ls)).out = s.out ∨
      ∃ ts, (s.commands ≠ [] → ts = s.block_time) ∧
        (finalize env (readLoop env b (flush env s) ls)).out =
          s.out ++ [{ time_stamp := ts, cmds := s.commands ++ (consumed ls).filter ordinary }]) := by
  have hfl : flush env s = { s with calls := s.calls + 1 } := flush_of_fail env s hfail
  have hq : ∀ ls, (readLoop env b (flush env s) ls).out = s.out →
      (readLoop env b (flush env s) ls).commands =
        s.commands ++ (consumed ls).filter ordinary ∧
      (s.commands ≠ [] → (readLoop env b (flush env s) ls).block_time = s.block_time) := by
    intro ls h
    have := readLoop_quiet env b (flush env s) ls (by rw [h, hfl])
    rw [hfl] at this ⊢
    exact this
  refine ⟨by rw [hfl]; exact ⟨rfl, rfl, rfl, rfl⟩, hq, ?_, ?_⟩
  · intro ls x hls hx h
    obtain ⟨q1, q2⟩ := hq ls h
    rw [consumed_of_no_EOF ls hls] at q1
    rw [readLoop_append _ _ _ _ _ hls, readLoop_cons _ _ _ _ _ hx, readLoop_nil]
    rcases step_cases env b (readLoop env b (flush env s) ls) x hx with
      ⟨h1, -, -⟩ | ⟨ts, -, h2, -, h3, -⟩
    · left; rw [h1, h]
    · right
      refine ⟨ts, fun hne => ?_, ?_⟩
      · rw [h2 (by rw [q1]; simp [hne]), q2 hne]
      · rw [h3, h, q1, List.filter_append, List.append_assoc]
  · intro ls h
    obtain ⟨q1, q2⟩ := hq ls h
    rcases finalize_cases env (readLoop env b (flush env s) ls) with
      ⟨h1, -, -⟩ | ⟨-, h2, -, h3, -⟩
    · left; rw [h1, h]
    · right
      refine ⟨(readLoop env b (flush env s) ls).block_time, fun hne => q2 hne, ?_⟩
      rw [h3, h, q1]

/-- C10 at block size 2 when the file of the first flush does not open: the
block `a`, `b` is retained, `c` is appended, and the `{` that follows writes
`a`, `b`, `c` under the time stamp of `a`. -/
theorem failed_flush_keeps_batch_witness :
    (flush envFailFirst { commands := ["a", "b"], deep := 0, block_time := "0", pos := 2,
                          calls := 0, out := [] }).commands = ["a", "b"] ∧
    (ProcessCommands envFailFirst 2 ["a", "b", "c", "\x7b"]).out =
      [{ time_stamp := "0", cmds := ["a", "b", "c"] }] :=
  ⟨(failed_flush_keeps_batch envFailFirst 2
      { commands := ["a", "b"], deep := 0, block_time := "0", pos := 2, calls := 0, out := [] }
      (by decide)).1.1, by decide⟩

/-! ## Runs without commands, and the state after a flush -/

theorem out_nil_of_written_nil (s : State) (hw : written s = [])
    (hok : ∀ w ∈ s.out, w.cmds ≠ [] ∧ empty w.time_stamp = false) : s.out = [] := by
  cases ho : s.out with
  | nil => rfl
  | cons w ws =>
    exfalso
    have h1 := (hok w (by rw [ho]; simp)).1
    simp only [written, ho, List.map_cons, List.flatten_cons, List.append_eq_nil] at hw
    exact h1 hw.1

theorem processCommands_writes_ok (env : Env) (b : Nat) (input : List String) :
    ∀ w ∈ (ProcessCommands env b input).out, w.cmds ≠ [] ∧ empty w.time_stamp = false := by
  unfold ProcessCommands
  apply finalize_writes_ok
  apply readLoop_writes_ok
  intro w hw
  simp [State.init] at hw

theorem processCommands_conserves (env : Env) (b : Nat) (input : List String) :
    written (ProcessCommands env b input) ++ (ProcessCommands env b input).commands =
      (consumed input).filter ordinary := by
  unfold ProcessCommands
  rw [finalize_conserves, readLoop_conserves]
  simp [written, State.init]

/-- C11 (empty input).  For every block size and environment, when no line
before the first `EOF` is an ordinary command, the whole run, final flush
included, writes nothing. -/
theorem empty_input_no_write (env : Env) (b : Nat) (input : List String)
    (h : ∀ l ∈ consumed input, ordinary l = false) :
    (ProcessCommands env b input).out = [] := by
  have hf : (consumed input).filter ordinary = [] := by
    rw [List.filter_eq_nil_iff]
    intro l hl
    simp [h l hl]
  have hc := processCommands_conserves env b input
  rw [hf, List.append_eq_nil] at hc
  exact out_nil_of_written_nil _ hc.1 (processCommands_writes_ok env b input)

/-- C11 on the empty input, on the input `EOF`, and on delimiters followed by
`EOF` and a command. -/
theorem empty_input_no_write_witness :
    (ProcessCommands envIdx 3 []).out = [] ∧
    (ProcessCommands envIdx 3 ["EOF"]).out = [] ∧
    (ProcessCommands envIdx 3 ["\x7b", "\x7d", "EOF", "a"]).out = [] :=
  ⟨empty_input_no_write envIdx 3 [] (by decide),
   empty_input_no_write envIdx 3 ["EOF"] (by decide),
   empty_input_no_write envIdx 3 ["\x7b", "\x7d", "EOF", "a"] (by decide)⟩

/-- C12 on the code.  After reading `a` with block size 1 the block is written
and nothing is pending, but `block_time` still holds the time stamp `0` of the
block written; it is not the empty time stamp of the initial state. -/
theorem flush_success_keeps_block_time_counterexample :
    (log envIdx { commands := ["a"], deep := 0, block_time := "0", pos := 1, calls := 0,
                  out := [] } "0" ["a"]).1 = true ∧
    (flush envIdx { commands := ["a"], deep := 0, block_time := "0", pos := 1, calls := 0,
                    out := [] }).block_time = "0" ∧
    (ProcessCommands envIdx 1 ["a"]).out = [{ time_stamp := "0", cmds := ["a"] }] ∧
    (ProcessCommands envIdx 1 ["a"]).commands = [] ∧
    (ProcessCommands envIdx 1 ["a"]).block_time = "0" ∧
    (ProcessCommands envIdx 1 ["a"]).block_time ≠ State.init.block_time := by
  decide

/-- C12 as amended.  After a flush in which `log` reports success nothing is
pending, the block written is what was pending under the time stamp held, and
`block_time` keeps that (non-empty) time stamp. -/
theorem flush_success_state (env : Env) (s : State)
    (hok : (log env s s.block_time s.commands).1 = true) :
    (flush env s).commands = [] ∧
    (flush env s).block_time = s.block_time ∧
    empty (flush env s).block_time = false ∧
    (flush env s).out = s.out ++ [{ time_stamp := s.block_time, cmds := s.commands }] := by
  rcases flush_effect env s with ⟨hf, -⟩ | ⟨-, g1, -, g3, g4, g5, -⟩
  · rw [hok] at hf; exact absurd hf (by decide)
  · exact ⟨g4, g5, by rw [g5]; exact g1, g3⟩

/-- C12 as amended, at the flush made when `a` fills a block of size 1. -/
theorem flush_success_state_witness :
    (flush envIdx { commands := ["a"], deep := 0, block_time := "0", pos := 1, calls := 0,
                    out := [] }).commands = [] ∧
    (flush envIdx { commands := ["a"], deep := 0, block_time := "0", pos := 1, calls := 0,
                    out := [] }).block_time = "0" :=
  have h := flush_success_state envIdx
    { commands := ["a"], deep := 0, block_time := "0", pos := 1, calls := 0, out := [] }
    (by decide)
  ⟨h.1, h.2.1⟩

/-! ## Ordinary lines that cannot trigger a flush -/

/-- At depth 0, once at least `block_size` commands are pending, ordinary lines
are only appended: the size test after appending never holds, so `log` is not
called.  A time stamp is taken only when nothing was pending. -/
theorem static_overflow_ingest (env : Env) (b : Nat) (xs : List String)
    (hxs : ∀ x ∈ xs, ordinary x = true) (s : State) (hd : s.deep = 0)
    (hlen : b ≤ s.commands.length) :
    readLoop env b s xs =
      { s with commands := s.commands ++ xs, pos := s.pos + xs.length,
               block_time := if s.commands = [] ∧ xs ≠ [] then
                   get_current_time_stamp env s.pos else s.block_time } := by
  induction xs generalizing s with
  | nil => simp [readLoop_nil]
  | cons x xs ih =>
    have hx : ordinary x = true := hxs x (by simp)
    have hxs1 : ∀ y ∈ xs, ordinary y = true := fun y hy => hxs y (by simp [hy])
    have hxe : x ≠ "EOF" := ((ordinary_iff x).1 hx).2.2
    have hne : s.commands.length + 1 ≠ b := by omega
    rw [readLoop_cons _ _ _ _ _ hxe, step_ordinary_static env b s x hx hd]
    simp only [if_neg hne]
    rw [ih hxs1 _ (by exact hd) (by simp; omega)]
    by_cases hc : s.commands = [] <;> simp [hc] <;> omega

/-- At any depth other than 0 ordinary lines are only appended. -/
theorem nonzero_depth_ingest (env : Env) (b : Nat) (xs : List String)
    (hxs : ∀ x ∈ xs, ordinary x = true) (s : State) (hd : s.deep ≠ 0) :
    readLoop env b s xs =
      { s with commands := s.commands ++ xs, pos := s.pos + xs.length } := by
  induction xs generalizing s with
  | nil => simp [readLoop_nil]
  | cons x xs ih =>
    have hx : ordinary x = true := hxs x (by simp)
    have hxs1 : ∀ y ∈ xs, ordinary y = true := fun y hy => hxs y (by simp [hy])
    have hxe : x ≠ "EOF" := ((ordinary_iff x).1 hx).2.2
    rw [readLoop_cons _ _ _ _ _ hxe, step_ordinary_dynamic env b s x hx hd]
    rw [ih hxs1 _ (by exact hd)]
    simp; omega

/-- A flush that finds a non-empty time stamp, pending commands and a file that
opens writes the pending commands and clears them. -/
theorem flush_of_opens (env : Env) (s : State) (hts : empty s.block_time = false)
    (hc : s.commands ≠ [])
    (hop : env.is_open s.calls ("bulk" ++ s.block_time ++ ".log") = true) :
    flush env s = { s with calls := s.calls + 1, commands := [],
                           out := s.out ++ [{ time_stamp := s.block_time, cmds := s.commands }] } := by
  apply flush_of_ok
  rw [log_fst_eq_true_iff]
  exact ⟨hts, hc, hop⟩

/-- C13 (overflow after a failed static flush).  Let `s` be a state at depth 0
with exactly `block_size ≥ 1` commands pending on which the flush fails.  Then
for all further ordinary lines `xs` the loop only appends: `log` is not called
again and nothing is written, whatever the environment would answer, so more
than `block_size` commands are pending as soon as one line was read.  The whole
batch is written by the next `{` and by the final flush when the time stamp is
non-empty and the file opens at that call. -/
theorem overflow_after_failed_static_flush (env : Env) (b : Nat) (hb : 1 ≤ b) (s : State)
    (hd : s.deep = 0) (hlen : s.commands.length = b)
    (hfail : (log env s s.block_time s.commands).1 = false)
    (xs : List String) (hxs : ∀ x ∈ xs, ordinary x = true) :
    readLoop env b (flush env s) xs =
      { s with calls := s.calls + 1, commands := s.commands ++ xs,
               pos := s.pos + xs.length } ∧
    (xs ≠ [] → b < (readLoop env b (flush env s) xs).commands.length) ∧
    (empty s.block_time = false →
      env.is_open (s.calls + 1) ("bulk" ++ s.block_time ++ ".log") = true →
      (readLoop env b (flush env s) (xs ++ ["\x7b"])).out =
        s.out ++ [{ time_stamp := s.block_time, cmds := s.commands ++ xs }] ∧
      (finalize env (readLoop env b (flush env s) xs)).out =
        s.out ++ [{ time_stamp := s.block_time, cmds := s.commands ++ xs }]) := by
  have hne : s.commands ≠ [] := by
    intro h0; rw [h0] at hlen; simp at hlen; omega
  have hrun : readLoop env b (flush env s) xs =
      { s with calls := s.calls + 1, commands := s.commands ++ xs,
               pos := s.pos + xs.length } := by
    rw [flush_of_fail env s hfail,
      static_overflow_ingest env b xs hxs _ (by exact hd) (by simp [hlen])]
    simp [hne]
  refine ⟨hrun, ?_, ?_⟩
  · intro hx
    rw [hrun]
    have : 0 < xs.length := List.length_pos.2 hx
    simp only [List.length_append]
    omega
  · intro hts hop
    have hne2 : s.commands ++ xs ≠ [] := by simp [hne]
    constructor
    · rw [readLoop_append _ _ _ _ _ (not_EOF_mem_of_ordinary xs hxs), hrun,
        readLoop_cons _ _ _ _ _ (by decide), readLoop_nil, step_open]
      simp only [if_pos hd]
      rw [flush_of_opens env _ (by exact hts) (by exact hne2) (by exact hop)]
    · rw [hrun]
      unfold finalize
      have hcond : (!(s.commands ++ xs).isEmpty && decide (s.deep = 0)) = true := by
        simp [hd, hne]
      simp only [hcond, if_true]
      rw [flush_of_opens env _ (by exact hts) (by exact hne2) (by exact hop)]

/-- C13 at block size 2 when only the file of the first `log` call does not
open: `a`, `b` stay pending, `c`, `d` are appended without a `log` call, and
the `{` that follows writes all four. -/
theorem overflow_after_failed_static_flush_witness :
    readLoop envFailFirst 2
        (flush envFailFirst { commands := ["a", "b"], deep := 0, block_time := "0", pos := 2,
                              calls := 0, out := [] }) ["c", "d"] =
      { commands := ["a", "b", "c", "d"], deep := 0, block_time := "0", pos := 4, calls := 1,
        out := [] } ∧
    (ProcessCommands envFailFirst 2 ["a", "b", "c", "d", "\x7b"]).out =
      [{ time_stamp := "0", cmds := ["a", "b", "c", "d"] }] :=
  ⟨(overflow_after_failed_static_flush envFailFirst 2 (by decide)
      { commands := ["a", "b"], deep := 0, block_time := "0", pos := 2, calls := 0, out := [] }
      rfl rfl (by decide) ["c", "d"] (by decide)).1, by decide⟩

/-- C14 (stray close delimiter).  At depth 0 a `}` sets the depth to -1 without
calling `log`; at negative depth an ordinary line is appended without a size
test and without calling `log`; a `{` at depth -1 brings the depth back to 0
without calling `log`; the final flush at negative depth does nothing; and the
run on `}` followed by ordinary lines writes nothing and keeps them pending. -/
theorem stray_close_delimiter (env : Env) (b : Nat) (s : State) (hd : s.deep = 0) :
    step env b s "\x7d" = { s with pos := s.pos + 1, deep := -1 } ∧
    (∀ (t : State) (line : String), t.deep < 0 → ordinary line = true →
      step env b t line = { t with pos := t.pos + 1, commands := t.commands ++ [line] }) ∧
    (∀ t : State, t.deep = -1 →
      step env b t "\x7b" = { t with pos := t.pos + 1, deep := 0 }) ∧
    (∀ t : State, t.deep < 0 → finalize env t = t) ∧
    (∀ xs : List String, (∀ x ∈ xs, ordinary x = true) →
      ProcessCommands env b ("\x7d" :: xs) =
        { commands := xs, deep := -1, block_time := "", pos := xs.length + 1, calls := 0,
          out := [] }) := by
  have h1 : ∀ u : State, u.deep = 0 →
      step env b u "\x7d" = { u with pos := u.pos + 1, deep := -1 } := by
    intro u hu
    have hn1 : u.deep ≠ 1 := by omega
    rw [step_close]
    simp [hn1, hu]
  refine ⟨h1 s hd, ?_, ?_, ?_, ?_⟩
  · intro t line ht hl
    exact step_ordinary_dynamic env b t line hl (by omega)
  · intro t ht
    have hn0 : t.deep ≠ 0 := by omega
    rw [step_open]
    simp [hn0, ht]
  · intro t ht
    exact finalize_of_deep_ne_zero env t (by omega)
  · intro xs hxs
    unfold ProcessCommands
    rw [readLoop_cons _ _ _ _ _ (by decide), h1 State.init rfl,
      nonzero_depth_ingest env b xs hxs _ (by simp),
      finalize_of_deep_ne_zero env _ (by simp)]
    simp [State.init]; omega

/-- C14 at block size 1 on the input `}`, `a`, `b`: nothing is written. -/
theorem stray_close_delimiter_witness :
    step envIdx 1 State.init "\x7d" =
      { commands := [], deep := -1, block_time := "", pos := 1, calls := 0, out := [] } ∧
    (ProcessCommands envIdx 1 ["\x7d", "a", "b"]).out = [] ∧
    (ProcessCommands envIdx 1 ["\x7d", "a", "b"]).commands = ["a", "b"] :=
  have h := stray_close_delimiter envIdx 1 State.init rfl
  ⟨h.1, by rw [h.2.2.2.2 ["a", "b"] (by decide)], by rw [h.2.2.2.2 ["a", "b"] (by decide)]⟩

/-! ## A block opened before any time stamp was taken -/

/-- Pending commands without a time stamp stay so through a flush, which is
refused. -/
theorem flush_stalled (env : Env) (s : State) (hc : s.commands ≠ [])
    (hts : empty s.block_time = true) :
    (flush env s).commands ≠ [] ∧ empty (flush env s).block_time = true ∧
    (flush env s).out = s.out := by
  have hf : (log env s s.block_time s.commands).1 = false := by
    cases hl : (log env s s.block_time s.commands).1
    · rfl
    · rw [log_fst_eq_true_iff] at hl
      rw [hl.1] at hts; exact absurd hts (by decide)
  rw [flush_of_fail env s hf]
  exact ⟨hc, hts, rfl⟩

theorem step_stalled (env : Env) (b : Nat) (s : State) (x : String) (hx : x ≠ "EOF")
    (hc : s.commands ≠ []) (hts : empty s.block_time = true) :
    (step env b s x).commands ≠ [] ∧ empty (step env b s x).block_time = true ∧
    (step env b s x).out = s.out := by
  obtain ⟨s1, ho, hcm, hbt, -, hst⟩ := step_shape env b s x hx
  have hc1 : s1.commands ≠ [] := by rw [hcm]; simp [hc]
  have hts1 : empty s1.block_time = true := by rw [hbt hc]; exact hts
  rcases hst with e | e
  · rw [e]; exact ⟨hc1, hts1, ho⟩
  · rw [e]
    obtain ⟨f1, f2, f3⟩ := flush_stalled env s1 hc1 hts1
    exact ⟨f1, f2, f3.trans ho⟩

theorem finalize_stalled (env : Env) (s : State) (hc : s.commands ≠ [])
    (hts : empty s.block_time = true) :
    (finalize env s).commands ≠ [] ∧ empty (finalize env s).block_time = true ∧
    (finalize env s).out = s.out := by
  unfold finalize
  split
  · exact flush_stalled env s hc hts
  · exact ⟨hc, hts, rfl⟩

theorem readLoop_stalled (env : Env) (b : Nat) (s : State) (ls : List String)
    (hc : s.commands ≠ []) (hts : empty s.block_time = true) :
    (readLoop env b s ls).commands ≠ [] ∧ empty (readLoop env b s ls).block_time = true ∧
    (readLoop env b s ls).out = s.out := by
  induction ls generalizing s with
  | nil => exact ⟨hc, hts, rfl⟩
  | cons x xs ih =>
    by_cases hx : x = "EOF"
    · subst hx
      rw [readLoop_EOF]; exact ⟨hc, hts, rfl⟩
    · rw [readLoop_cons _ _ _ _ _ hx]
      obtain ⟨f1, f2, f3⟩ := step_stalled env b s x hx hc hts
      obtain ⟨g1, g2, g3⟩ := ih _ f1 f2
      exact ⟨g1, g2, g3.trans f3⟩

/-- C16 (a leading dynamic block stalls all output).  For every block size,
environment, ordinary line `c` and lines `rest`, the run on `{`, `c`, `rest`
writes nothing.  The reason is the state property "commands are pending and the
time stamp is empty": it holds after `{`, `c`, every step of the loop and the
final flush keep it, and no step or final flush writes in such a state. -/
theorem leading_dynamic_block_stalls (env : Env) (b : Nat) (c : String) (rest : List String)
    (hc : ordinary c = true) :
    (ProcessCommands env b (["\x7b", c] ++ rest)).out = [] ∧
    ((readLoop env b State.init ["\x7b", c]).commands ≠ [] ∧
      empty (readLoop env b State.init ["\x7b", c]).block_time = true) ∧
    (∀ (s : State) (x : String), x ≠ "EOF" → s.commands ≠ [] → empty s.block_time = true →
      (step env b s x).commands ≠ [] ∧ empty (step env b s x).block_time = true ∧
      (step env b s x).out = s.out) ∧
    (∀ s : State, s.commands ≠ [] → empty s.block_time = true →
      (finalize env s).commands ≠ [] ∧ empty (finalize env s).block_time = true ∧
      (finalize env s).out = s.out) := by
  have hce : c ≠ "EOF" := ((ordinary_iff c).1 hc).2.2
  have h2 : readLoop env b State.init ["\x7b", c] =
      { commands := [c], deep := 1, block_time := "", pos := 2, calls := 1, out := [] } := by
    rw [readLoop_cons _ _ _ _ _ (by decide), step_open_static_empty env b State.init rfl rfl,
      readLoop_cons _ _ _ _ _ hce, readLoop_nil,
      step_ordinary_dynamic env b _ c hc (by simp)]
    simp [State.init]
  have hcm : (readLoop env b State.init ["\x7b", c]).commands ≠ [] := by rw [h2]; simp
  have hbt : empty (readLoop env b State.init ["\x7b", c]).block_time = true := by
    rw [h2]; rfl
  refine ⟨?_, ⟨hcm, hbt⟩, fun s x hx h1 h3 => step_stalled env b s x hx h1 h3,
    fun s h1 h3 => finalize_stalled env s h1 h3⟩
  unfold ProcessCommands
  have hE : "EOF" ∉ ["\x7b", c] := by
    simp only [List.mem_cons, List.mem_singleton, List.not_mem_nil, or_false, not_or]
    exact ⟨by decide, fun e => hce e.symm⟩
  rw [readLoop_append _ _ _ _ _ hE]
  obtain ⟨r1, r2, r3⟩ := readLoop_stalled env b _ rest hcm hbt
  obtain ⟨-, -, f3⟩ := finalize_stalled env _ r1 r2
  rw [f3, r3, h2]

/-- C16 at block size 1 with static lines and a complete block after the
leading `{`, `a`. -/
theorem leading_dynamic_block_stalls_witness :
    (ProcessCommands envIdx 1 (["\x7b", "a"] ++ ["\x7d", "b", "c", "\x7b", "d", "\x7d"])).out = [] :=
  (leading_dynamic_block_stalls envIdx 1 "a" ["\x7d", "b", "c", "\x7b", "d", "\x7d"] (by decide)).1

/-- C18 (block size zero).  With block size 0 and files that always open, a
non-empty list of ordinary lines is read without any call of `log`, since the
size after appending is never 0; the final flush then writes one block with
all the lines in input order.  The function `main` runs `ProcessCommands` with
block size 0 when its argument does not parse and when it parses as 0. -/
theorem block_size_zero (env : Env) (henv : env.alwaysOpens) (xs : List String)
    (hne : xs ≠ []) (hxs : ∀ x ∈ xs, ordinary x = true) :
    (readLoop env 0 State.init xs).out = [] ∧
    (readLoop env 0 State.init xs).calls = 0 ∧
    (readLoop env 0 State.init xs).commands = xs ∧
    (ProcessCommands env 0 xs).out =
      [{ time_stamp := get_current_time_stamp env 0, cmds := xs }] ∧
    main env none xs = ProcessCommands env 0 xs ∧
    main env (some 0) xs = ProcessCommands env 0 xs := by
  have hrun : readLoop env 0 State.init xs =
      { commands := xs, deep := 0, block_time := get_current_time_stamp env 0,
        pos := xs.length, calls := 0, out := [] } := by
    rw [static_overflow_ingest env 0 xs hxs State.init rfl (Nat.zero_le _)]
    simp [State.init, hne]
  refine ⟨by rw [hrun], by rw [hrun], by rw [hrun], ?_, rfl, rfl⟩
  unfold ProcessCommands
  rw [hrun, finalize_static env henv _ rfl (empty_time_stamp env 0) (by exact hne)]
  simp [State.init]

/-- C18 on the lines `a`, `b`, `c`. -/
theorem block_size_zero_witness :
    (readLoop envIdx 0 State.init ["a", "b", "c"]).out = [] ∧
    (ProcessCommands envIdx 0 ["a", "b", "c"]).out =
      [{ time_stamp := get_current_time_stamp envIdx 0, cmds := ["a", "b", "c"] }] :=
  have h := block_size_zero envIdx envIdx_alwaysOpens ["a", "b", "c"] (by decide) (by decide)
  ⟨h.1, h.2.2.2.1⟩

/-! ## Runs that start with a command -/

theorem flush_block_time (env : Env) (s : State) :
    (flush env s).block_time = s.block_time := by
  rcases flush_effect env s with ⟨-, -, -, f3, -⟩ | ⟨-, -, -, -, -, g5, -⟩
  · exact f3
  · exact g5

theorem flush_deep (env : Env) (s : State) : (flush env s).deep = s.deep := by
  rcases flush_effect env s with ⟨-, -, -, -, f4⟩ | ⟨-, -, -, -, -, -, g6⟩
  · exact f4
  · exact g6

/-- An ordinary line at depth 0 with fewer than `block_size` commands pending,
when files always open: the depth stays 0, the time stamp is non-empty
afterwards, fewer than `block_size` commands are pending afterwards, and a block
is written only when it has exactly `block_size` commands. -/
theorem step_ordinary_static_bound (env : Env) (henv : env.alwaysOpens) (b : Nat) (s : State)
    (hd : s.deep = 0) (hlen : s.commands.length < b)
    (hts : s.commands ≠ [] → empty s.block_time = false)
    (y : String) (hy : ordinary y = true) :
    (step env b s y).deep = 0 ∧ empty (step env b s y).block_time = false ∧
    (step env b s y).commands.length < b ∧
    ((step env b s y).out = s.out ∨
      ∃ w : LogWrite, w.cmds.length = b ∧ (step env b s y).out = s.out ++ [w]) := by
  have hbt : empty (if s.commands = [] then get_current_time_stamp env s.pos
      else s.block_time) = false := by
    split
    · exact empty_time_stamp _ _
    · rename_i hne; exact hts hne
  rw [step_ordinary_static env b s y hy hd]
  by_cases hfull : s.commands.length + 1 = b
  · simp only [if_pos hfull]
    rw [flush_alwaysOpens env _ henv (by exact hbt) (by simp)]
    refine ⟨hd, hbt, by simp; omega, Or.inr ⟨_, ?_, rfl⟩⟩
    simp [hfull]
  · simp only [if_neg hfull]
    exact ⟨hd, hbt, by simp; omega, by simp⟩

/-- A step keeps a non-empty time stamp non-empty. -/
theorem step_keeps_time_stamp (env : Env) (b : Nat) (s : State) (x : String) (hx : x ≠ "EOF")
    (hts : empty s.block_time = false) : empty (step env b s x).block_time = false := by
  by_cases h1 : x = "\x7b"
  · subst h1
    rw [step_open]
    by_cases hd : s.deep = 0
    · simp only [if_pos hd]
      rw [flush_block_time]; exact hts
    · simp only [if_neg hd]
      exact hts
  by_cases h2 : x = "\x7d"
  · subst h2
    rw [step_close]
    by_cases hd : s.deep = 1
    · simp only [if_pos hd]
      rw [flush_block_time]; exact hts
    · simp only [if_neg hd]
      exact hts
  have ho : ordinary x = true := (ordinary_iff x).2 ⟨h1, h2, hx⟩
  by_cases hd : s.deep = 0
  · have hbt : empty (if s.commands = [] then get_current_time_stamp env s.pos
        else s.block_time) = false := by
      split
      · exact empty_time_stamp _ _
      · exact hts
    rw [step_ordinary_static env b s x ho hd]
    by_cases hf : s.commands.length + 1 = b
    · simp only [if_pos hf]
      rw [flush_block_time]; exact hbt
    · simp only [if_neg hf]
      exact hbt
  · rw [step_ordinary_dynamic env b s x ho hd]
    exact hts

theorem readLoop_keeps_time_stamp (env : Env) (b : Nat) (s : State) (ls : List String)
    (hts : empty s.block_time = false) : empty (readLoop env b s ls).block_time = false := by
  induction ls generalizing s with
  | nil => exact hts
  | cons x xs ih =>
    by_cases hx : x = "EOF"
    · subst hx
      rw [readLoop_EOF]; exact hts
    · rw [readLoop_cons _ _ _ _ _ hx]
      exact ih _ (step_keeps_time_stamp env b s x hx hts)

/-- The first line, when it is a command, sets a non-empty time stamp. -/
theorem first_command_time_stamp (env : Env) (b : Nat) (x : String) (hx : ordinary x = true) :
    empty (step env b State.init x).block_time = false := by
  rw [step_ordinary_static env b State.init x hx rfl]
  by_cases hf : State.init.commands.length + 1 = b
  · simp only [if_pos hf]
    rw [flush_block_time]
    exact empty_time_stamp _ _
  · simp only [if_neg hf]
    exact empty_time_stamp _ _

/-- C15 (no command lost or duplicated).  For every block size, 0 included,
with files that always open: when the first input line is an ordinary command
and the depth is 0 when the loop stops (at the first `EOF` or at the end of the
input), the commands of all blocks written, in the order of writing and with
the final flush included, are exactly the ordinary lines before the first
`EOF`, in input order, and nothing is left pending.  The time stamps of the
model are never empty, and the assumption that the depth never becomes negative
is not needed. -/
theorem no_command_lost_or_duplicated (env : Env) (henv : env.alwaysOpens) (b : Nat)
    (x : String) (rest : List String) (hx : ordinary x = true)
    (hend : (readLoop env b State.init (x :: rest)).deep = 0) :
    written (ProcessCommands env b (x :: rest)) = (consumed (x :: rest)).filter ordinary ∧
    (ProcessCommands env b (x :: rest)).commands = [] := by
  have hxe : x ≠ "EOF" := ((ordinary_iff x).1 hx).2.2
  have hts : empty (readLoop env b State.init (x :: rest)).block_time = false := by
    rw [readLoop_cons _ _ _ _ _ hxe]
    exact readLoop_keeps_time_stamp env b _ rest (first_command_time_stamp env b x hx)
  have hcm : (ProcessCommands env b (x :: rest)).commands = [] := by
    unfold ProcessCommands
    by_cases hc : (readLoop env b State.init (x :: rest)).commands = []
    · unfold finalize
      simp [hc]
    · rw [finalize_static env henv _ hend hts hc]
  have hcons := processCommands_conserves env b (x :: rest)
  rw [hcm, List.append_nil] at hcons
  exact ⟨hcons, hcm⟩

/-- C15 at block size 2 on `a`, `b`, `c`, then the block `d`, `e`, then `f`,
`EOF` and a line that is not read. -/
theorem no_command_lost_or_duplicated_witness :
    written (ProcessCommands envIdx 2 ["a", "b", "c", "\x7b", "d", "e", "\x7d", "f", "EOF", "g"]) =
      ["a", "b", "c", "d", "e", "f"] :=
  (no_command_lost_or_duplicated envIdx envIdx_alwaysOpens 2 "a"
    ["b", "c", "\x7b", "d", "e", "\x7d", "f", "EOF", "g"] (by decide) (by decide)).1.trans
    (by decide)

theorem readLoop_of_EOF_mem (env : Env) (b : Nat) (s : State) (zs ws : List String)
    (h : "EOF" ∈ zs) : readLoop env b s (zs ++ ws) = readLoop env b s zs := by
  induction zs generalizing s with
  | nil => simp at h
  | cons z zs ih =>
    by_cases hz : z = "EOF"
    · subst hz
      rw [List.cons_append, readLoop_EOF, readLoop_EOF]
    · have hm : "EOF" ∈ zs := by
        rcases List.mem_cons.1 h with e | e
        · exact absurd e.symm hz
        · exact e
      rw [List.cons_append, readLoop_cons _ _ _ _ _ hz, readLoop_cons _ _ _ _ _ hz, ih _ hm]

/-- Reading one more line: nothing happens after `EOF`, otherwise one step. -/
theorem readLoop_snoc (env : Env) (b : Nat) (s : State) (zs : List String) (y : String) :
    readLoop env b s (zs ++ [y]) =
      if "EOF" ∈ zs ∨ y = "EOF" then readLoop env b s zs
      else step env b (readLoop env b s zs) y := by
  by_cases hz : "EOF" ∈ zs
  · rw [if_pos (Or.inl hz), readLoop_of_EOF_mem env b s zs [y] hz]
  · rw [readLoop_append _ _ _ _ _ hz]
    by_cases hy : y = "EOF"
    · subst hy
      rw [if_pos (Or.inr rfl), readLoop_EOF]
    · rw [if_neg (by simp [hz, hy]), readLoop_cons _ _ _ _ _ hy, readLoop_nil]

/-- One step from a state with a non-empty time stamp and, at depth 0, fewer
than `block_size` commands pending, when files always open and the depth is
not negative before and after the step: the same holds afterwards, and an
ordinary line writes a block only of exactly `block_size` commands. -/
theorem step_bound (env : Env) (henv : env.alwaysOpens) (b : Nat) (hb : 1 ≤ b) (s : State)
    (hts : empty s.block_time = false) (hlen : s.deep = 0 → s.commands.length < b)
    (h0 : 0 ≤ s.deep) (y : String) (hy : y ≠ "EOF") (h1 : 0 ≤ (step env b s y).deep) :
    (empty (step env b s y).block_time = false ∧
      ((step env b s y).deep = 0 → (step env b s y).commands.length < b)) ∧
    (ordinary y = true →
      (step env b s y).out = s.out ∨
      ∃ w : LogWrite, w.cmds.length = b ∧ (step env b s y).out = s.out ++ [w]) := by
  refine ⟨⟨step_keeps_time_stamp env b s y hy hts, ?_⟩, ?_⟩
  · by_cases e1 : y = "\x7b"
    · subst e1
      rw [step_open]
      by_cases hd : s.deep = 0
      · simp only [if_pos hd]
        intro hz
        rw [flush_deep] at hz
        simp only at hz
        omega
      · simp only [if_neg hd]
        intro hz
        omega
    by_cases e2 : y = "\x7d"
    · subst e2
      rw [step_close]
      by_cases hd : s.deep = 1
      · simp only [if_pos hd]
        intro _
        by_cases hc : s.commands = []
        · rw [flush_of_empty env _ (by exact hc)]
          simp only [hc, List.length_nil]
          omega
        · rw [flush_alwaysOpens env _ henv (by exact hts) (by exact hc)]
          simp only [List.length_nil]
          omega
      · simp only [if_neg hd]
        intro hz
        omega
    have ho : ordinary y = true := (ordinary_iff y).2 ⟨e1, e2, hy⟩
    by_cases hd : s.deep = 0
    · intro _
      exact (step_ordinary_static_bound env henv b s hd (hlen hd) (fun _ => hts) y ho).2.2.1
    · rw [step_ordinary_dynamic env b s y ho hd]
      intro hz
      exact absurd hz hd
  · intro ho
    by_cases hd : s.deep = 0
    · exact (step_ordinary_static_bound env henv b s hd (hlen hd) (fun _ => hts) y ho).2.2.2
    · rw [step_ordinary_dynamic env b s y ho hd]
      exact Or.inl rfl

/-- The time stamp stays non-empty and, at depth 0, fewer than `block_size`
commands are pending, along a run in which the depth is never negative. -/
theorem readLoop_bound (env : Env) (henv : env.alwaysOpens) (b : Nat) (hb : 1 ≤ b) (s : State)
    (hts : empty s.block_time = false) (hlen : s.deep = 0 → s.commands.length < b)
    (zs : List String)
    (hnn : ∀ us vs, zs = us ++ vs → 0 ≤ (readLoop env b s us).deep) :
    empty (readLoop env b s zs).block_time = false ∧
    ((readLoop env b s zs).deep = 0 → (readLoop env b s zs).commands.length < b) := by
  induction zs using List.reverseRecOn with
  | nil => exact ⟨hts, hlen⟩
  | append_singleton zs y ih =>
    have ih1 := ih (fun us vs e => hnn us (vs ++ [y]) (by rw [e, List.append_assoc]))
    have hend := hnn (zs ++ [y]) [] (by simp)
    have hmid := hnn zs [y] rfl
    rw [readLoop_snoc] at hend ⊢
    by_cases hc : "EOF" ∈ zs ∨ y = "EOF"
    · rw [if_pos hc]; exact ih1
    · rw [if_neg hc] at hend ⊢
      exact (step_bound env henv b hb _ ih1.1 ih1.2 hmid y (fun e => hc (Or.inr e)) hend).1

/-- After the first line, a command, and any further lines of a run in which
the depth is never negative, the time stamp is non-empty and, at depth 0,
fewer than `block_size` commands are pending. -/
theorem bound_after_first_command (env : Env) (henv : env.alwaysOpens) (b : Nat) (hb : 1 ≤ b)
    (x : String) (hx : ordinary x = true) (zs : List String)
    (hnn : ∀ us vs, zs = us ++ vs → 0 ≤ (readLoop env b State.init (x :: us)).deep) :
    empty (readLoop env b State.init (x :: zs)).block_time = false ∧
    ((readLoop env b State.init (x :: zs)).deep = 0 →
      (readLoop env b State.init (x :: zs)).commands.length < b) := by
  have hxe : x ≠ "EOF" := ((ordinary_iff x).1 hx).2.2
  obtain ⟨f1, f2, f3, -⟩ := step_ordinary_static_bound env henv b State.init rfl
    (by simp [State.init]; omega) (by simp [State.init]) x hx
  rw [readLoop_cons _ _ _ _ _ hxe]
  apply readLoop_bound env henv b hb _ f2 (fun _ => f3)
  intro us vs e
  have := hnn us vs e
  rw [readLoop_cons _ _ _ _ _ hxe] at this
  exact this

/-- C17 (static batch size bound).  With block size `b ≥ 1` and files that
always open, for an input whose first line is an ordinary command and in
which the depth is never negative: after every initial part of the input that
leaves the depth at 0 fewer than `b` commands are pending, and whenever
processing an ordinary line writes a block, it is one block of exactly `b`
commands.  The time stamps of the model are never empty. -/
theorem static_batch_size_bound (env : Env) (henv : env.alwaysOpens) (b : Nat) (hb : 1 ≤ b)
    (x : String) (rest : List String) (hx : ordinary x = true)
    (hnn : ∀ zs ws, x :: rest = zs ++ ws → 0 ≤ (readLoop env b State.init zs).deep) :
    (∀ zs ws, x :: rest = zs ++ ws → (readLoop env b State.init zs).deep = 0 →
      (readLoop env b State.init zs).commands.length < b) ∧
    (∀ zs y ws, x :: rest = zs ++ y :: ws → ordinary y = true →
      (readLoop env b State.init (zs ++ [y])).out = (readLoop env b State.init zs).out ∨
      ∃ w : LogWrite, w.cmds.length = b ∧
        (readLoop env b State.init (zs ++ [y])).out =
          (readLoop env b State.init zs).out ++ [w]) := by
  have hinv : ∀ zs ws, rest = zs ++ ws →
      empty (readLoop env b State.init (x :: zs)).block_time = false ∧
      ((readLoop env b State.init (x :: zs)).deep = 0 →
        (readLoop env b State.init (x :: zs)).commands.length < b) := by
    intro zs ws e
    apply bound_after_first_command env henv b hb x hx zs
    intro us vs e2
    exact hnn (x :: us) (vs ++ ws) (by rw [e, e2]; simp)
  constructor
  · intro zs ws e
    cases zs with
    | nil =>
      intro _
      simp only [readLoop_nil, State.init, List.length_nil]
      omega
    | cons z zs =>
      simp only [List.cons_append, List.cons.injEq] at e
      obtain ⟨rfl, e⟩ := e
      exact (hinv zs ws e).2
  · intro zs y ws e ho
    have hye : y ≠ "EOF" := ((ordinary_iff y).1 ho).2.2
    have hend := hnn (zs ++ [y]) ws (by rw [e]; simp)
    rw [readLoop_snoc] at hend ⊢
    by_cases hc : "EOF" ∈ zs ∨ y = "EOF"
    · rw [if_pos hc]; exact Or.inl rfl
    · rw [if_neg hc] at hend ⊢
      cases zs with
      | nil =>
        simp only [List.nil_append, List.cons.injEq] at e
        obtain ⟨rfl, -⟩ := e
        exact (step_ordinary_static_bound env henv b State.init rfl
          (by simp [State.init]; omega) (by simp [State.init]) x hx).2.2.2
      | cons z zs =>
        simp only [List.cons_append, List.cons.injEq] at e
        obtain ⟨rfl, e⟩ := e
        obtain ⟨i1, i2⟩ := hinv zs (y :: ws) e
        have hmid := hnn (x :: zs) (y :: ws) (by rw [e]; simp)
        exact (step_bound env henv b hb _ i1 i2 hmid y hye hend).2 ho

/-- C17 at block size 2 on `a`, `b`, `c`, `{`, `d`, `e`, `f`, `}`, `g`: the
line `b` writes the block `a`, `b` of two commands, and after the closing `}`
nothing is pending. -/
theorem static_batch_size_bound_witness :
    (readLoop envIdx 2 State.init (["a", "b", "c", "\x7b", "d", "e", "f", "\x7d"])).commands.length
      < 2 ∧
    ((readLoop envIdx 2 State.init (["a"] ++ ["b"])).out =
        (readLoop envIdx 2 State.init ["a"]).out ∨
      ∃ w : LogWrite, w.cmds.length = 2 ∧
        (readLoop envIdx 2 State.init (["a"] ++ ["b"])).out =
          (readLoop envIdx 2 State.init ["a"]).out ++ [w]) :=
  have h := static_batch_size_bound envIdx envIdx_alwaysOpens 2 (by decide) "a"
    ["b", "c", "\x7b", "d", "e", "f", "\x7d", "g"] (by decide)
    (by
      intro zs ws e
      have hall : ∀ us ∈ List.inits ["a", "b", "c", "\x7b", "d", "e", "f", "\x7d", "g"],
          0 ≤ (readLoop envIdx 2 State.init us).deep := by decide
      exact hall zs ((List.mem_inits _ _).2 ⟨ws, e.symm⟩))
  ⟨h.1 ["a", "b", "c", "\x7b", "d", "e", "f", "\x7d"] ["g"] rfl (by decide),
   h.2 ["a"] "b" ["c", "\x7b", "d", "e", "f", "\x7d", "g"] rfl (by decide)⟩

end BulkCmd
